import Mathlib

/-!
Verification development for the entt example program (src/src/main.cpp).

The program wires the entt entity-component registry, snapshot writer,
snapshot loader and continuous loader together with five plain component
records.  The registry, allocator, snapshot and loader machinery lives in
the external entt library, so those parts are modelled here from the
design-level specification (spec.md sections 3, 4.1 to 4.6); the component
records, the `Init` routine and the concrete program scenario are embedded
from the source file.

Modelling notes:
 - `float` fields are modelled as exact rationals (`Rat`): the program only
   stores the whole constants 1.0 to 6.0 and never computes on them, so
   serialization round-trips them exactly.
 - entt entity handles pack a slot index and a generation counter into one
   integer; here the handle is the pair itself, plus the reserved null
   sentinel.  `Entity.underlying` recovers the packed integer that the
   program logs (version shifted by 20 bits, as for entt 32-bit entities).
-/

/-- An entt entity handle: the reserved null sentinel, or a slot index
paired with a generation counter.  Two non-null handles are equal iff both
index and generation match. -/
inductive Entity where
  | null : Entity
  | mk (idx : Nat) (gen : Nat) : Entity
deriving DecidableEq

/-- The packed integer underlying a non-null handle (generation in the
high 12 bits, index in the low 20 bits, as for 32-bit entt entities). -/
def Entity.underlying : Entity → Nat
  | .null => 4294967295
  | .mk i g => g * 1048576 + i

/-- The slot index of a handle (0 for the null sentinel). -/
def Entity.eidx : Entity → Nat
  | .null => 0
  | .mk i _ => i

/-- The string the program's fmt formatter renders for an entity. -/
def fmtEntity : Entity → String
  | .null => "<entity null>"
  | e => "<entity " ++ toString e.underlying ++ ">"

/-- Modelled from the spec: the Entity Allocator state (spec 4.1).
`slots` holds the current generation of every slot index ever allocated;
`free` is the LIFO list of slot indices available for reuse. -/
structure Allocator where
  slots : List Nat
  free : List Nat
deriving DecidableEq

namespace Allocator

def empty : Allocator := ⟨[], []⟩

/-- Modelled from the spec: `is_valid(e)` is true iff `e` is non-null, its
generation matches the slot's current generation, and the slot is not on
the free list (spec 4.1). -/
def isValid (a : Allocator) : Entity → Bool
  | .null => false
  | .mk i g => decide (a.slots.get? i = some g) && !(a.free.contains i)

/-- Modelled from the spec: `create()` reuses the most recently freed slot
with its (already bumped) generation, else allocates a fresh slot index at
generation 0 (spec 4.1). -/
def create : Allocator → Entity × Allocator
  | ⟨slots, []⟩ => (.mk slots.length 0, ⟨slots ++ [0], []⟩)
  | ⟨slots, i :: rest⟩ => (.mk i (slots.getD i 0), ⟨slots, rest⟩)

/-- Modelled from the spec: `destroy(e)` bumps the slot's generation (so
stale handles are recognised) and pushes the index on the free list; a
stale or null handle is rejected and leaves the state unchanged
(spec 4.1). -/
def destroy (a : Allocator) (e : Entity) : Allocator :=
  match e with
  | .null => a
  | .mk i g =>
      if a.isValid (.mk i g) then ⟨a.slots.set i (g + 1), i :: a.free⟩ else a

/-- The live entities of an allocator, in slot-index order: one handle per
slot that is not on the free list, carrying the slot's current
generation. -/
def live (a : Allocator) : List Entity :=
  (List.range a.slots.length).filterMap fun i =>
    if a.free.contains i then none else some (.mk i (a.slots.getD i 0))

/-- Structural well-formedness of an allocator: the free list has no
duplicates and only mentions allocated slots. -/
def WF (a : Allocator) : Prop :=
  a.free.Nodup ∧ ∀ i ∈ a.free, i < a.slots.length

instance (a : Allocator) : Decidable a.WF := by
  unfold WF; infer_instance

end Allocator

/-- BasicInfo component (a name string), from the source. -/
structure BasicInfo where
  name : String
deriving DecidableEq

/-- Position component, from the source (float fields as exact rationals). -/
structure Position where
  x : Rat
  y : Rat
deriving DecidableEq

/-- Velocity component, from the source. -/
structure Velocity where
  x : Rat
  y : Rat
deriving DecidableEq

/-- Shape component, from the source. -/
structure Shape where
  width : Rat
  height : Rat
deriving DecidableEq

/-- RelationShip component, from the source: a parent reference and an
ordered list of child references (weak entity references). -/
structure RelationShip where
  parent : Entity
  children : List Entity
deriving DecidableEq

/-- First-match association lookup in a component store (spec 4.2:
`get`/`try_get`). -/
def storeGet {T : Type} : List (Entity × T) → Entity → Option T
  | [], _ => none
  | (k, v) :: rest, e => if k = e then some v else storeGet rest e

/-- Modelled from the spec: a Registry owns the Entity Allocator and one
Component Store per component type; each store keeps its pairs in
insertion order (spec 4.2, 4.3). -/
structure Registry where
  alloc : Allocator
  basicInfo : List (Entity × BasicInfo)
  position : List (Entity × Position)
  velocity : List (Entity × Velocity)
  shape : List (Entity × Shape)
  relationShip : List (Entity × RelationShip)
deriving DecidableEq

namespace Registry

def empty : Registry := ⟨Allocator.empty, [], [], [], [], []⟩

/-- Modelled from the spec: `create` delegates to the allocator
(spec 4.3). -/
def create (r : Registry) : Entity × Registry :=
  let (e, a) := r.alloc.create
  (e, { r with alloc := a })

/-- Modelled from the spec: `destroy` removes the entity from every
component store and releases its slot (spec 4.3). -/
def destroy (r : Registry) (e : Entity) : Registry :=
  { alloc := r.alloc.destroy e,
    basicInfo := r.basicInfo.filter fun p => p.1 ≠ e,
    position := r.position.filter fun p => p.1 ≠ e,
    velocity := r.velocity.filter fun p => p.1 ≠ e,
    shape := r.shape.filter fun p => p.1 ≠ e,
    relationShip := r.relationShip.filter fun p => p.1 ≠ e }

/-- Modelled from the spec: `emplace<BasicInfo>` appends to the store
(the program never emplaces a duplicate, which entt would reject). -/
def emplaceBasicInfo (r : Registry) (e : Entity) (v : BasicInfo) : Registry :=
  { r with basicInfo := r.basicInfo ++ [(e, v)] }

def emplacePosition (r : Registry) (e : Entity) (v : Position) : Registry :=
  { r with position := r.position ++ [(e, v)] }

def emplaceVelocity (r : Registry) (e : Entity) (v : Velocity) : Registry :=
  { r with velocity := r.velocity ++ [(e, v)] }

def emplaceShape (r : Registry) (e : Entity) (v : Shape) : Registry :=
  { r with shape := r.shape ++ [(e, v)] }

def emplaceRelationShip (r : Registry) (e : Entity) (v : RelationShip) : Registry :=
  { r with relationShip := r.relationShip ++ [(e, v)] }

/-- Well-formedness of a registry: the allocator is well formed and every
component store has duplicate-free keys, each a currently valid entity. -/
def WF (r : Registry) : Prop :=
  r.alloc.WF ∧
  (r.basicInfo.map Prod.fst).Nodup ∧ (∀ p ∈ r.basicInfo, r.alloc.isValid p.1 = true) ∧
  (r.position.map Prod.fst).Nodup ∧ (∀ p ∈ r.position, r.alloc.isValid p.1 = true) ∧
  (r.velocity.map Prod.fst).Nodup ∧ (∀ p ∈ r.velocity, r.alloc.isValid p.1 = true) ∧
  (r.shape.map Prod.fst).Nodup ∧ (∀ p ∈ r.shape, r.alloc.isValid p.1 = true) ∧
  (r.relationShip.map Prod.fst).Nodup ∧ (∀ p ∈ r.relationShip, r.alloc.isValid p.1 = true)

instance (r : Registry) : Decidable r.WF := by
  unfold WF; infer_instance

end Registry

/-- `registry.view<Position, BasicInfo, RelationShip>().each()` from the
source: iterate the leading Position store and probe the other two, keeping
exactly the entities that carry all three components (spec 4.2). -/
def viewPBR (r : Registry) : List (Entity × Position × BasicInfo × RelationShip) :=
  r.position.filterMap fun p =>
    match storeGet r.basicInfo p.1, storeGet r.relationShip p.1 with
    | some b, some rel => some (p.1, p.2, b, rel)
    | _, _ => none

/-- A view over Position, BasicInfo and Velocity, built the same way
(used to exhibit the intersection semantics on the Init registry). -/
def viewPBV (r : Registry) : List (Entity × Position × BasicInfo × Velocity) :=
  r.position.filterMap fun p =>
    match storeGet r.basicInfo p.1, storeGet r.velocity p.1 with
    | some b, some v => some (p.1, p.2, b, v)
    | _, _ => none

/-- `createN n` performs `n` successive `create` calls, collecting the
returned handles in order (the loop at main.cpp lines 117-120). -/
def createN : Nat → Registry → List Entity × Registry
  | 0, r => ([], r)
  | n + 1, r =>
      let (e, r1) := r.create
      let (es, r2) := createN n r1
      (e :: es, r2)

/-- `Init` from the source (main.cpp lines 114-142): create ten entities,
destroy all ten, then create `entity1` and `entity2`, attach their
components, and cross-link them through RelationShip components.  Returns
the populated registry together with the two handles the program logs. -/
def Init (r0 : Registry) : Registry × Entity × Entity :=
  let (entities, r1) := createN 10 r0
  let r2 := entities.foldl (fun r e => r.destroy e) r1
  let (entity1, r3) := r2.create
  let r4 := r3.emplaceBasicInfo entity1 ⟨fmtEntity entity1⟩
  let r5 := r4.emplacePosition entity1 ⟨1, 2⟩
  let r6 := r5.emplaceVelocity entity1 ⟨3, 4⟩
  let (entity2, r7) := r6.create
  let r8 := r7.emplaceBasicInfo entity2 ⟨fmtEntity entity2⟩
  let r9 := r8.emplacePosition entity2 ⟨5, 6⟩
  let r10 := r9.emplaceShape entity2 ⟨5, 6⟩
  let r11 := r10.emplaceRelationShip entity1 ⟨.null, [entity2]⟩
  let r12 := r11.emplaceRelationShip entity2 ⟨entity1, []⟩
  (r12, entity1, entity2)

/-- The registry state after `Init` in `main` (main.cpp line 150). -/
def initRegistry : Registry := (Init Registry.empty).1

/-- The handle the program logs as `entity1`. -/
def entity1 : Entity := (Init Registry.empty).2.1

/-- The handle the program logs as `entity2`. -/
def entity2 : Entity := (Init Registry.empty).2.2

/-- Modelled from the spec: an Archive records the list of live entity
identifiers and, per component type in the order the program requests
them, the ordered (identifier, value) pairs of each store (spec 3,
"Archive", and 4.4). -/
structure Archive where
  entities : List Entity
  basicInfo : List (Entity × BasicInfo)
  position : List (Entity × Position)
  velocity : List (Entity × Velocity)
  shape : List (Entity × Shape)
  relationShip : List (Entity × RelationShip)
deriving DecidableEq

/-- Modelled from the spec: the Snapshot Writer emits the live entity list
in the allocator's iteration order and each requested store's pairs in
store order, without side effects on the source registry (spec 4.4); the
unchanged registry is returned alongside the archive to make the frame
condition explicit. -/
def snapshotWrite (r : Registry) : Archive × Registry :=
  (⟨r.alloc.live, r.basicInfo, r.position, r.velocity, r.shape, r.relationShip⟩, r)

namespace Allocator

/-- Modelled from the spec: install an archived identifier verbatim into a
fresh allocator, growing the slot table as needed; slots created only as
padding stay on the free list, so the allocator's free-list/generation
state is consistent afterwards (spec 4.5 step 1). -/
def install (a : Allocator) (i g : Nat) : Allocator :=
  { slots := (a.slots ++ List.replicate (i + 1 - a.slots.length) 0).set i g,
    free := (List.range' a.slots.length (i + 1 - a.slots.length) ++ a.free).filter
      fun j => j ≠ i }

/-- Install a whole archived entity (null entries are ignored; a written
archive never contains null). -/
def installEntity (a : Allocator) : Entity → Allocator
  | .null => a
  | .mk i g => a.install i g

end Allocator

/-- All entity keys of an archive's component sections. -/
def Archive.sectionKeys (ar : Archive) : List Entity :=
  ar.basicInfo.map Prod.fst ++ ar.position.map Prod.fst ++
    ar.velocity.map Prod.fst ++ ar.shape.map Prod.fst ++
    ar.relationShip.map Prod.fst

/-- Modelled from the spec: the full Snapshot Loader re-creates the
archived entities verbatim in a fresh registry and attaches the recorded
component values; an archive whose component sections reference an
identifier absent from the entity list is rejected as corrupt
(spec 4.5). -/
def snapshotLoad (ar : Archive) : Option Registry :=
  if ar.sectionKeys.all (fun e => ar.entities.contains e) then
    some { alloc := ar.entities.foldl Allocator.installEntity Allocator.empty,
           basicInfo := ar.basicInfo,
           position := ar.position,
           velocity := ar.velocity,
           shape := ar.shape,
           relationShip := ar.relationShip }
  else none

/-- The continuous loader's identifier mapping: ordered association pairs
from archived identifier to target identifier. -/
abbrev EMap := List (Entity × Entity)

/-- First-match lookup in the loader's mapping. -/
def mfind : EMap → Entity → Option Entity
  | [], _ => none
  | (k, t) :: rest, e => if k = e then some t else mfind rest e

/-- Modelled from the spec: resolve one archived identifier during a
continuous load: null maps to null unconditionally; an already mapped
identifier is reused; an unseen identifier is satisfied by creating a new
entity in the target and recording the mapping (spec 4.6 steps 2-3 and
the forward-reference rule). -/
def resolve (r : Registry) (m : EMap) : Entity → Entity × Registry × EMap
  | .null => (.null, r, m)
  | e =>
      match mfind m e with
      | some t => (t, r, m)
      | none =>
          let (t, r') := r.create
          (t, r', m ++ [(e, t)])

/-- Resolve a list of identifiers in order, threading the state. -/
def resolveList (r : Registry) (m : EMap) : List Entity → List Entity × Registry × EMap
  | [] => ([], r, m)
  | e :: rest =>
      let (t, r1, m1) := resolve r m e
      let (ts, r2, m2) := resolveList r1 m1 rest
      (t :: ts, r2, m2)

/-- Modelled from the spec: load one plain component section during a
continuous load: resolve each owner identifier, then attach the value via
the supplied emplace operation (spec 4.6 step 3, no reference fields). -/
def loadPlain {T : Type} (emp : Registry → Entity → T → Registry) :
    List (Entity × T) → Registry × EMap → Registry × EMap
  | [], st => st
  | (e, v) :: rest, (r, m) =>
      let (t, r1, m1) := resolve r m e
      loadPlain emp rest (emp r1 t v, m1)

/-- Modelled from the spec: load the RelationShip section: resolve the
owner, then rewrite the declared reference fields (`parent` and every
element of `children`) through the mapping before attaching (spec 4.6
step 3 with field selectors, main.cpp line 199). -/
def loadRel : List (Entity × RelationShip) → Registry × EMap → Registry × EMap
  | [], st => st
  | (e, v) :: rest, (r, m) =>
      let (t, r1, m1) := resolve r m e
      let (p, r2, m2) := resolve r1 m1 v.parent
      let (cs, r3, m3) := resolveList r2 m2 v.children
      loadRel rest (r3.emplaceRelationShip t ⟨p, cs⟩, m3)

/-- Modelled from the spec: the Continuous Loader maps every archived
entity into the target (creating as needed), then loads the component
sections in the order the program requests them, rewriting RelationShip
reference fields through the mapping; the mapping table lives exactly for
this one load (spec 4.6, main.cpp lines 193-200). -/
def continuousLoad (ar : Archive) (target : Registry) : Registry × EMap :=
  let st0 := ar.entities.foldl (fun st e => (resolve st.1 st.2 e).2) (target, [])
  let st1 := loadPlain Registry.emplaceBasicInfo ar.basicInfo st0
  let st2 := loadPlain Registry.emplacePosition ar.position st1
  let st3 := loadPlain Registry.emplaceVelocity ar.velocity st2
  let st4 := loadPlain Registry.emplaceShape ar.shape st3
  loadRel ar.relationShip st4

/-- One Entity Allocator operation (spec 4.1). -/
inductive AOp where
  | create : AOp
  | destroy (e : Entity) : AOp
deriving DecidableEq

/-- Run one allocator operation, discarding the created handle. -/
def Allocator.step (a : Allocator) : AOp → Allocator
  | .create => a.create.2
  | .destroy e => a.destroy e

/-- Run a sequence of allocator operations. -/
def Allocator.run (a : Allocator) (ops : List AOp) : Allocator :=
  ops.foldl Allocator.step a

/-- An allocator together with the handles issued by `create` and not yet
destroyed — the simultaneously-live entities of a create/destroy trace. -/
structure AllocTrace where
  alloc : Allocator
  liveIds : List Entity
deriving DecidableEq

/-- Run one operation on a trace: `create` issues and records a handle,
`destroy` releases a valid handle and retires it from the live list. -/
def AllocTrace.step (st : AllocTrace) : AOp → AllocTrace
  | .create =>
      let (e, a) := st.alloc.create
      ⟨a, st.liveIds ++ [e]⟩
  | .destroy e =>
      ⟨st.alloc.destroy e, if st.alloc.isValid e then st.liveIds.erase e else st.liveIds⟩

/-- Run a sequence of operations on a trace. -/
def AllocTrace.run (st : AllocTrace) (ops : List AOp) : AllocTrace :=
  ops.foldl AllocTrace.step st

/-- The invariant tying a create/destroy trace together: the issued,
not-yet-destroyed handles are pairwise distinct, each is currently valid,
and the allocator is structurally well formed. -/
def AllocTrace.Inv (st : AllocTrace) : Prop :=
  st.liveIds.Nodup ∧ (∀ e ∈ st.liveIds, st.alloc.isValid e = true) ∧ st.alloc.WF

/-- Allocator `b` is reachable from `a` by create calls only: the slot
table grew by appending and the free list shrank by popping. -/
def Evolved (a b : Allocator) : Prop :=
  (∃ ext, b.slots = a.slots ++ ext) ∧ ∃ k, b.free = a.free.drop k

/-- The invariant of one continuous load into a target whose allocator was
`tgA`: the current allocator `a` is well formed and create-reachable from
`tgA`, and the mapping has duplicate-free non-null archived keys, mapped
injectively to handles that are valid now but were not valid in the
target before the load. -/
structure LInv (tgA a : Allocator) (m : EMap) : Prop where
  wf : a.WF
  ev : Evolved tgA a
  keysN : (m.map Prod.fst).Nodup
  keyNN : ∀ p ∈ m, p.1 ≠ Entity.null
  valVal : ∀ p ∈ m, a.isValid p.2 = true
  valFresh : ∀ p ∈ m, tgA.isValid p.2 = false
  valsN : (m.map Prod.snd).Nodup

/-- The rewriting the continuous loader applies to a reference field: the
null sentinel stays null, a mapped identifier becomes its target
identifier (and an unmapped one stays put, which never happens after a
load resolved it). -/
def remapId (m : EMap) : Entity → Entity
  | .null => .null
  | e => (mfind m e).getD e

/-- Well-formedness of an archive: no null entries in the entity list, and
every component section has duplicate-free, non-null owner keys (an
archive written from a well-formed registry satisfies this). -/
def Archive.WF (ar : Archive) : Prop :=
  (∀ e ∈ ar.entities, e ≠ .null) ∧
  (ar.basicInfo.map Prod.fst).Nodup ∧ (∀ p ∈ ar.basicInfo, p.1 ≠ .null) ∧
  (ar.position.map Prod.fst).Nodup ∧ (∀ p ∈ ar.position, p.1 ≠ .null) ∧
  (ar.velocity.map Prod.fst).Nodup ∧ (∀ p ∈ ar.velocity, p.1 ≠ .null) ∧
  (ar.shape.map Prod.fst).Nodup ∧ (∀ p ∈ ar.shape, p.1 ≠ .null) ∧
  (ar.relationShip.map Prod.fst).Nodup ∧ (∀ p ∈ ar.relationShip, p.1 ≠ .null)

instance (ar : Archive) : Decidable ar.WF := by
  unfold Archive.WF; infer_instance

/-- The archive mentions `X` in a component section: as the owner key of a
component pair, or inside a RelationShip reference field. -/
def Archive.mentions (ar : Archive) (X : Entity) : Prop :=
  X ∈ ar.basicInfo.map Prod.fst ∨ X ∈ ar.position.map Prod.fst ∨
  X ∈ ar.velocity.map Prod.fst ∨ X ∈ ar.shape.map Prod.fst ∨
  X ∈ ar.relationShip.map Prod.fst ∨
  ∃ p ∈ ar.relationShip, X = p.2.parent ∨ X ∈ p.2.children

instance (ar : Archive) (X : Entity) : Decidable (ar.mentions X) := by
  unfold Archive.mentions; infer_instance

/-- `e` reuses the slot of destroyed handle `d`: same slot index, with the
generation incremented once. -/
def reusesSlotOf : Entity → Entity → Bool
  | .mk i g, .mk j h => decide (i = j) && decide (g = h + 1)
  | _, _ => false

-- ===== End of definitions; theorems follow. =====

example : entity1 = .mk 9 1 := by decide
example : entity2 = .mk 8 1 := by decide
example : initRegistry.alloc.live = [.mk 8 1, .mk 9 1] := by decide
example : fmtEntity entity1 = "<entity 1048585>" := by decide
example : (viewPBR initRegistry).map Prod.fst = [entity1, entity2] := by decide
example : (viewPBV initRegistry).map Prod.fst = [entity1] := by decide
example : initRegistry.WF := by decide

example : snapshotLoad (snapshotWrite initRegistry).1 = some
    { initRegistry with alloc := ⟨[0,0,0,0,0,0,0,0,1,1], [0,1,2,3,4,5,6,7]⟩ } := by decide
example : (continuousLoad (snapshotWrite initRegistry).1 Registry.empty).2 =
    [(.mk 8 1, .mk 0 0), (.mk 9 1, .mk 1 0)] := by decide

namespace Allocator

theorem isValid_mk (a : Allocator) (i g : Nat) :
    a.isValid (.mk i g) = true ↔ (a.slots.get? i = some g ∧ i ∉ a.free) := by
  simp [isValid, List.contains, List.elem_iff]

theorem isValid_null (a : Allocator) : a.isValid .null = false := rfl

theorem create_fresh (a : Allocator) : a.isValid a.create.1 = false := by
  rcases a with ⟨slots, free⟩
  cases free with
  | nil =>
      simp only [create]
      rw [Bool.eq_false_iff]
      intro h
      rw [isValid_mk] at h
      simp [List.get?_eq_none] at h
  | cons i rest =>
      simp only [create]
      rw [Bool.eq_false_iff]
      intro h
      rw [isValid_mk] at h
      exact h.2 (List.mem_cons_self i rest)

theorem create_sound (a : Allocator) (h : a.WF) :
    a.create.2.isValid a.create.1 = true := by
  rcases a with ⟨slots, free⟩
  cases free with
  | nil =>
      simp only [create]
      rw [isValid_mk]
      constructor
      · rw [List.get?_append_right (Nat.le_refl _)]
        simp
      · simp
  | cons i rest =>
      simp only [create]
      rw [isValid_mk]
      obtain ⟨hnd, hlt⟩ := h
      have hi : i < slots.length := hlt i (List.mem_cons_self i rest)
      constructor
      · rw [List.getD_eq_getElem?_getD, List.get?_eq_getElem?]
        rw [List.getElem?_eq_getElem hi]
        simp
      · exact (List.nodup_cons.mp hnd).1

theorem create_preserves (a : Allocator) (e : Entity) (h : a.isValid e = true) :
    a.create.2.isValid e = true := by
  rcases a with ⟨slots, free⟩
  cases e with
  | null => simp [isValid] at h
  | mk j g =>
      rw [isValid_mk] at h ⊢
      obtain ⟨hget, hfree⟩ := h
      have hj : j < slots.length := by
        by_contra hn
        rw [List.get?_eq_none.mpr (Nat.le_of_not_lt hn)] at hget
        exact Option.noConfusion hget
      cases free with
      | nil =>
          simp only [create]
          exact ⟨by rw [List.get?_append hj]; exact hget, by simp⟩
      | cons i rest =>
          simp only [create]
          exact ⟨hget, fun hm => hfree (List.mem_cons_of_mem i hm)⟩

theorem create_wf (a : Allocator) (h : a.WF) : a.create.2.WF := by
  rcases a with ⟨slots, free⟩
  obtain ⟨hnd, hlt⟩ := h
  cases free with
  | nil => exact ⟨List.nodup_nil, by intro i hi; exact absurd hi (List.not_mem_nil i)⟩
  | cons i rest =>
      exact ⟨(List.nodup_cons.mp hnd).2,
        fun j hj => hlt j (List.mem_cons_of_mem i hj)⟩

theorem destroy_wf (a : Allocator) (e : Entity) (h : a.WF) : (a.destroy e).WF := by
  cases e with
  | null => exact h
  | mk i g =>
      simp only [destroy]
      by_cases hv : a.isValid (.mk i g) = true
      · rw [if_pos hv]
        rw [isValid_mk] at hv
        obtain ⟨hget, hfree⟩ := hv
        have hi : i < a.slots.length := by
          by_contra hn
          rw [List.get?_eq_none.mpr (Nat.le_of_not_lt hn)] at hget
          exact Option.noConfusion hget
        refine ⟨List.nodup_cons.mpr ⟨hfree, h.1⟩, ?_⟩
        intro j hj
        rw [List.length_set]
        rcases List.mem_cons.mp hj with rfl | hj
        · exact hi
        · exact h.2 j hj
      · rw [if_neg hv]; exact h

theorem destroy_invalidates (a : Allocator) (e : Entity) (h : a.isValid e = true) :
    (a.destroy e).isValid e = false := by
  cases e with
  | null => simp [isValid] at h
  | mk i g =>
      simp only [destroy, if_pos h]
      rw [Bool.eq_false_iff]
      intro hc
      rw [isValid_mk] at hc
      exact hc.2 (List.mem_cons_self i _)

theorem destroy_preserves (a : Allocator) (e f : Entity) (hf : a.isValid f = true)
    (hne : f ≠ e) : (a.destroy e).isValid f = true := by
  cases e with
  | null => exact hf
  | mk i g =>
      simp only [destroy]
      by_cases hv : a.isValid (.mk i g) = true
      · rw [if_pos hv]
        cases f with
        | null => simp [isValid] at hf
        | mk j h =>
            rw [isValid_mk] at hf ⊢
            obtain ⟨hget, hfree⟩ := hf
            have hji : j ≠ i := by
              intro hji
              subst hji
              rw [isValid_mk] at hv
              have : h = g := by
                have := hv.1.symm.trans hget
                exact (Option.some_inj.mp this).symm
              exact hne (by rw [this])
            constructor
            · rw [List.get?_set_ne _ _ (fun hc => hji hc.symm)]
              exact hget
            · intro hm
              rcases List.mem_cons.mp hm with hc | hc
              · exact hji hc
              · exact hfree hc
      · rw [if_neg hv]; exact hf

/-- `create` never changes the generation recorded for an existing slot. -/
theorem create_get?_stable (a : Allocator) (i g : Nat)
    (h : a.slots.get? i = some g) : a.create.2.slots.get? i = some g := by
  rcases a with ⟨slots, free⟩
  have hi : i < slots.length := by
    by_contra hn
    rw [List.get?_eq_none.mpr (Nat.le_of_not_lt hn)] at h
    exact Option.noConfusion h
  cases free with
  | nil => simp only [create]; rw [List.get?_append hi]; exact h
  | cons j rest => simpa [create] using h

theorem run_nil (a : Allocator) : a.run [] = a := rfl

theorem run_cons (a : Allocator) (op : AOp) (ops : List AOp) :
    a.run (op :: ops) = (a.step op).run ops := rfl

/-- A sequence of `create` calls never changes the generation recorded for
an existing slot. -/
theorem run_creates_get?_stable (n : Nat) (a : Allocator) (i g : Nat)
    (h : a.slots.get? i = some g) :
    (a.run (List.replicate n .create)).slots.get? i = some g := by
  induction n generalizing a with
  | zero => exact h
  | succ n ih =>
      rw [List.replicate_succ, run_cons]
      exact ih _ (create_get?_stable a i g h)

end Allocator

theorem AllocTrace.step_inv (st : AllocTrace) (op : AOp) (h : st.Inv) :
    (st.step op).Inv := by
  obtain ⟨hnd, hval, hwf⟩ := h
  cases op with
  | create =>
      refine ⟨?_, ?_, Allocator.create_wf _ hwf⟩
      · simp only [step]
        rw [List.nodup_append]
        refine ⟨hnd, List.nodup_singleton _, ?_⟩
        intro e he hmem
        rw [List.mem_singleton] at hmem
        subst hmem
        have h1 := hval _ he
        rw [Allocator.create_fresh st.alloc] at h1
        exact Bool.noConfusion h1
      · simp only [step]
        intro e he
        rcases List.mem_append.mp he with hm | hm
        · exact Allocator.create_preserves _ _ (hval _ hm)
        · rw [List.mem_singleton] at hm
          subst hm
          exact Allocator.create_sound _ hwf
  | destroy e =>
      by_cases hv : st.alloc.isValid e = true
      · refine ⟨?_, ?_, Allocator.destroy_wf _ _ hwf⟩
        · simp only [step, if_pos hv]
          exact hnd.erase e
        · simp only [step, if_pos hv]
          intro f hf
          have hf' := (List.Nodup.mem_erase_iff hnd).mp hf
          exact Allocator.destroy_preserves _ _ _ (hval _ hf'.2) hf'.1
      · have hv' : st.alloc.isValid e = false := Bool.eq_false_iff.mpr hv
        refine ⟨?_, ?_, Allocator.destroy_wf _ _ hwf⟩
        · simpa only [step, hv', if_neg hv] using hnd
        · simp only [step, if_neg hv]
          intro f hf
          have : st.alloc.destroy e = st.alloc := by
            cases e with
            | null => rfl
            | mk i g => simp only [Allocator.destroy, hv', if_false]; rfl
          rw [this]
          exact hval _ hf

theorem AllocTrace.run_inv (st : AllocTrace) (ops : List AOp) (h : st.Inv) :
    (st.run ops).Inv := by
  induction ops generalizing st with
  | nil => exact h
  | cons op rest ih => exact ih _ (st.step_inv op h)

/-- C7: for every finite sequence of create() and destroy() calls on an
Entity Allocator, no two simultaneously-live entities ever have equal
identifiers (equal slot index and equal generation). -/
theorem allocator_uniqueness (ops : List AOp) :
    ((AllocTrace.run ⟨Allocator.empty, []⟩ ops).liveIds).Nodup :=
  (AllocTrace.run_inv ⟨Allocator.empty, []⟩ ops
    ⟨List.nodup_nil, fun _ he => absurd he (List.not_mem_nil _),
      List.nodup_nil, fun _ hi => absurd hi (List.not_mem_nil _)⟩).1

/-- C6: for every entity identifier e valid in an allocator, after
destroy(e) followed by any finite number of create() calls, is_valid(e)
returns false, even if a newly created entity reuses e's slot index
(the slot's generation counter was incremented on destruction). -/
theorem generation_safety (a : Allocator) (e : Entity) (h : a.isValid e = true)
    (n : Nat) :
    ((a.destroy e).run (List.replicate n .create)).isValid e = false := by
  cases e with
  | null => simp [Allocator.isValid] at h
  | mk i g =>
      have hget : a.slots.get? i = some g := ((Allocator.isValid_mk a i g).mp h).1
      have hi : i < a.slots.length := by
        by_contra hn
        rw [List.get?_eq_none.mpr (Nat.le_of_not_lt hn)] at hget
        exact Option.noConfusion hget
      have hd : (a.destroy (.mk i g)).slots.get? i = some (g + 1) := by
        simp only [Allocator.destroy, if_pos h]
        exact List.get?_set_eq_of_lt _ hi
      have hrun := Allocator.run_creates_get?_stable n _ i (g + 1) hd
      rw [Bool.eq_false_iff]
      intro hc
      rw [Allocator.isValid_mk] at hc
      rw [hc.1] at hrun
      have : g = g + 1 := Option.some_inj.mp hrun
      omega

/-- Witness for C6 at a concrete allocator: one live slot, destroyed,
then three creates; the stale handle stays invalid. -/
theorem generation_safety_witness :
    (Allocator.mk [0] []).isValid (.mk 0 0) = true ∧
    (((Allocator.mk [0] []).destroy (.mk 0 0)).run
        (List.replicate 3 .create)).isValid (.mk 0 0) = false :=
  ⟨by decide, generation_safety ⟨[0], []⟩ (.mk 0 0) (by decide) 3⟩

/-- C9: after Init, exactly two entities are live; the ten handles Init
created first are slots 0-9 at generation 0; each live handle reuses one
of those freed slots with an incremented generation, and neither live
handle equals any of the ten destroyed handles. -/
theorem init_allocator_reuse :
    initRegistry.alloc.live = [entity2, entity1] ∧
    initRegistry.alloc.live.length = 2 ∧
    entity1 = Entity.mk 9 1 ∧ entity2 = Entity.mk 8 1 ∧
    (createN 10 Registry.empty).1 = (List.range 10).map (fun i => Entity.mk i 0) ∧
    (initRegistry.alloc.live.all fun e =>
      (createN 10 Registry.empty).1.any (reusesSlotOf e)) = true ∧
    (∀ e ∈ initRegistry.alloc.live, ∀ d ∈ (createN 10 Registry.empty).1, e ≠ d) := by
  decide

/-- C10: after Init the two RelationShip components are mutually
consistent: entity1 has parent null and children [entity2], entity2 has
parent entity1 and no children, and every non-null identifier stored in
any RelationShip field is a live entity of the registry. -/
theorem init_relationship_consistent :
    storeGet initRegistry.relationShip entity1 = some ⟨Entity.null, [entity2]⟩ ∧
    storeGet initRegistry.relationShip entity2 = some ⟨entity1, []⟩ ∧
    (∀ p ∈ initRegistry.relationShip,
       (p.2.parent = Entity.null ∨ initRegistry.alloc.isValid p.2.parent = true) ∧
       (∀ c ∈ p.2.children, c ≠ Entity.null → initRegistry.alloc.isValid c = true)) := by
  decide

/-- C4 counterexample: in the program, entity2 does carry a RelationShip
component (main.cpp line 141), so the view over Position, BasicInfo and
RelationShip yields both entities, not the singleton {entity1}. -/
theorem view_intersection_counterexample :
    storeGet initRegistry.relationShip entity2 ≠ none ∧
    (viewPBR initRegistry).map Prod.fst ≠ [entity1] ∧
    entity2 ∈ (viewPBR initRegistry).map Prod.fst := by
  decide

/-- C4 (amended): after Init, entity1 carries Position, BasicInfo,
Velocity and RelationShip and entity2 carries Position, BasicInfo, Shape
and RelationShip; the view over Position, BasicInfo and RelationShip
yields exactly entity1 and entity2 with their component values, while the
view over Position, BasicInfo and Velocity yields exactly entity1, since
entity2 lacks Velocity — the view keeps exactly the entities carrying all
listed component types. -/
theorem view_intersection :
    viewPBR initRegistry =
      [(entity1, ⟨1, 2⟩, ⟨"<entity 1048585>"⟩, ⟨Entity.null, [entity2]⟩),
       (entity2, ⟨5, 6⟩, ⟨"<entity 1048584>"⟩, ⟨entity1, []⟩)] ∧
    viewPBV initRegistry = [(entity1, ⟨1, 2⟩, ⟨"<entity 1048585>"⟩, ⟨3, 4⟩)] ∧
    storeGet initRegistry.velocity entity2 = none := by
  decide

/-- C8: the Snapshot Writer has no side effect on the source registry and
is deterministic for a fixed registry state: writing again from the
registry the first write returned produces the identical archive,
including the ordering of the entity list and of every component
section. -/
theorem snapshot_write_pure (r : Registry) :
    (snapshotWrite r).2 = r ∧
    (snapshotWrite ((snapshotWrite r).2)).1 = (snapshotWrite r).1 :=
  ⟨rfl, rfl⟩

namespace Allocator

theorem contains_eq_true_iff (l : List Nat) (i : Nat) :
    l.contains i = true ↔ i ∈ l := by
  simp [List.contains, List.elem_iff]

theorem empty_isValid (e : Entity) : Allocator.empty.isValid e = false := by
  cases e with
  | null => rfl
  | mk j h => simp [empty, isValid]

theorem mem_live (a : Allocator) (j h : Nat) :
    Entity.mk j h ∈ a.live ↔ a.isValid (.mk j h) = true := by
  unfold live
  rw [List.mem_filterMap, isValid_mk]
  constructor
  · rintro ⟨i, hi, hf⟩
    by_cases hc : a.free.contains i
    · rw [if_pos hc] at hf
      exact Option.noConfusion hf
    · rw [if_neg hc] at hf
      obtain ⟨rfl, rfl⟩ : i = j ∧ a.slots.getD i 0 = h := by
        have := Option.some_inj.mp hf
        exact ⟨congrArg Entity.eidx this, by cases this; rfl⟩
      have hlt := List.mem_range.mp hi
      constructor
      · rw [List.get?_eq_getElem?, List.getElem?_eq_getElem hlt,
          List.getD_eq_getElem?_getD, List.getElem?_eq_getElem hlt]
        rfl
      · intro hm
        exact hc ((contains_eq_true_iff _ _).mpr hm)
  · rintro ⟨hget, hfree⟩
    refine ⟨j, ?_, ?_⟩
    · apply List.mem_range.mpr
      by_contra hn
      rw [List.get?_eq_none.mpr (Nat.le_of_not_lt hn)] at hget
      exact Option.noConfusion hget
    · have hc : a.free.contains j = false := by
        rw [Bool.eq_false_iff]
        intro hcc
        exact hfree ((contains_eq_true_iff _ _).mp hcc)
      rw [if_neg (by rw [hc]; exact Bool.false_ne_true)]
      have : a.slots.getD j 0 = h := by
        rw [List.getD_eq_getElem?_getD, ← List.get?_eq_getElem?, hget]
        rfl
      rw [this]

theorem live_nonnull (a : Allocator) : ∀ e ∈ a.live, e ≠ .null := by
  intro e he
  unfold live at he
  rw [List.mem_filterMap] at he
  obtain ⟨i, _, hf⟩ := he
  by_cases hc : a.free.contains i
  · rw [if_pos hc] at hf
    exact Option.noConfusion hf
  · rw [if_neg hc] at hf
    intro hnull
    rw [hnull] at hf
    exact Entity.noConfusion (Option.some_inj.mp hf)

theorem live_eidx_nodup (a : Allocator) : (a.live.map Entity.eidx).Nodup := by
  unfold live
  rw [List.map_filterMap]
  have heq : ∀ i : Nat,
      (Option.map Entity.eidx
        (if a.free.contains i then none else some (Entity.mk i (a.slots.getD i 0)))) =
      (if a.free.contains i then none else some i) := by
    intro i
    by_cases hc : a.free.contains i
    · rw [if_pos hc, if_pos hc]; rfl
    · rw [if_neg hc, if_neg hc]; rfl
  rw [List.filterMap_congr fun i _ => heq i]
  apply List.Nodup.filterMap ?_ (List.nodup_range _)
  intro i i' j hji hji'
  by_cases hc : a.free.contains i
  · rw [if_pos hc] at hji
    exact Option.noConfusion hji
  · rw [if_neg hc] at hji
    by_cases hc' : a.free.contains i'
    · rw [if_pos hc'] at hji'
      exact Option.noConfusion hji'
    · rw [if_neg hc'] at hji'
      simp only [Option.mem_def, Option.some.injEq] at hji hji'
      omega

theorem install_isValid_self (a : Allocator) (i g h : Nat) :
    (a.install i g).isValid (.mk i h) = decide (h = g) := by
  simp only [install, isValid]
  have hlen : i < ((a.slots ++ List.replicate (i + 1 - a.slots.length) 0)).length := by
    rw [List.length_append, List.length_replicate]
    omega
  have hset : ((a.slots ++ List.replicate (i + 1 - a.slots.length) 0).set i g).get? i
      = some g := List.get?_set_eq_of_lt _ hlen
  have hcont : (((List.range' a.slots.length (i + 1 - a.slots.length) ++ a.free).filter
      fun j => j ≠ i).contains i) = false := by
    rw [Bool.eq_false_iff]
    intro hc
    have := (contains_eq_true_iff _ _).mp hc
    have := (List.mem_filter.mp this).2
    simp at this
  simp only [hset, hcont]
  by_cases hg : h = g
  · simp [hg]
  · simp [hg]
    omega

theorem install_isValid_ne (a : Allocator) (i g j h : Nat) (hji : j ≠ i) :
    (a.install i g).isValid (.mk j h) = a.isValid (.mk j h) := by
  simp only [install, isValid]
  have hcont : (((List.range' a.slots.length (i + 1 - a.slots.length) ++ a.free).filter
        fun k => k ≠ i).contains j) =
      ((List.range' a.slots.length (i + 1 - a.slots.length) ++ a.free).contains j) := by
    by_cases hm : j ∈ (List.range' a.slots.length (i + 1 - a.slots.length) ++ a.free)
    · rw [(contains_eq_true_iff _ _).mpr hm,
        (contains_eq_true_iff _ _).mpr (List.mem_filter.mpr ⟨hm, by simp [hji]⟩)]
    · have h1 : ((List.range' a.slots.length (i + 1 - a.slots.length) ++ a.free).contains j)
          = false := by
        rw [Bool.eq_false_iff]; intro hc
        exact hm ((contains_eq_true_iff _ _).mp hc)
      have h2 : (((List.range' a.slots.length (i + 1 - a.slots.length) ++ a.free).filter
          fun k => k ≠ i).contains j) = false := by
        rw [Bool.eq_false_iff]; intro hc
        exact hm (List.mem_filter.mp ((contains_eq_true_iff _ _).mp hc)).1
      rw [h1, h2]
  by_cases hj : j < a.slots.length
  · have hset : ((a.slots ++ List.replicate (i + 1 - a.slots.length) 0).set i g).get? j
        = a.slots.get? j := by
      rw [List.get?_set_ne _ _ (fun hc => hji hc.symm), List.get?_append hj]
    have hcont2 : ((List.range' a.slots.length (i + 1 - a.slots.length) ++ a.free).contains j)
        = (a.free.contains j) := by
      by_cases hm : j ∈ a.free
      · rw [(contains_eq_true_iff _ _).mpr hm,
          (contains_eq_true_iff _ _).mpr (List.mem_append.mpr (Or.inr hm))]
      · have h1 : (a.free.contains j) = false := by
          rw [Bool.eq_false_iff]; intro hc
          exact hm ((contains_eq_true_iff _ _).mp hc)
        have h2 : ((List.range' a.slots.length (i + 1 - a.slots.length) ++ a.free).contains j)
            = false := by
          rw [Bool.eq_false_iff]; intro hc
          rcases List.mem_append.mp ((contains_eq_true_iff _ _).mp hc) with hr | hfr
          · have := List.mem_range'_1.mp hr
            omega
          · exact hm hfr
        rw [h1, h2]
    simp only [hcont, hset, hcont2]
  · have hnone : a.slots.get? j = none := List.get?_eq_none.mpr (Nat.le_of_not_lt hj)
    by_cases hjext : j < (a.slots ++ List.replicate (i + 1 - a.slots.length) 0).length
    · have hrange : j ∈ List.range' a.slots.length (i + 1 - a.slots.length) := by
        rw [List.length_append, List.length_replicate] at hjext
        apply List.mem_range'_1.mpr
        omega
      have hc : ((List.range' a.slots.length (i + 1 - a.slots.length) ++ a.free).contains j)
          = true := (contains_eq_true_iff _ _).mpr (List.mem_append.mpr (Or.inl hrange))
      simp only [hcont, hc, hnone]
      simp
    · have hnone2 : ((a.slots ++ List.replicate (i + 1 - a.slots.length) 0).set i g).get? j
          = none := by
        apply List.get?_eq_none.mpr
        rw [List.length_set]
        exact Nat.le_of_not_lt hjext
      simp only [hcont, hnone2, hnone]
      simp

/-- Folding `installEntity` over a duplicate-index-free list of non-null
entities builds an allocator whose valid handles are exactly the listed
ones, plus the untouched handles of the starting allocator. -/
theorem foldl_install_isValid (es : List Entity) (a : Allocator)
    (hnn : ∀ e ∈ es, e ≠ .null) (hnd : (es.map Entity.eidx).Nodup) (j h : Nat) :
    ((es.foldl Allocator.installEntity a).isValid (.mk j h) = true) ↔
      (Entity.mk j h ∈ es ∨
        (j ∉ es.map Entity.eidx ∧ a.isValid (.mk j h) = true)) := by
  induction es generalizing a with
  | nil => simp
  | cons e rest ih =>
      obtain ⟨i, g, rfl⟩ : ∃ i g, e = Entity.mk i g := by
        cases e with
        | null => exact absurd rfl (hnn _ (List.mem_cons_self _ _))
        | mk i g => exact ⟨i, g, rfl⟩
      rw [List.map_cons, List.nodup_cons] at hnd
      obtain ⟨hni, hndr⟩ := hnd
      have hstep : (Entity.mk i g :: rest).foldl Allocator.installEntity a
          = rest.foldl Allocator.installEntity (a.install i g) := rfl
      rw [hstep, ih _ (fun e he => hnn e (List.mem_cons_of_mem _ he)) hndr]
      by_cases hji : j = i
      · subst hji
        have hmem : Entity.mk j h ∉ rest := by
          intro hm
          exact hni (List.mem_map.mpr ⟨Entity.mk j h, hm, rfl⟩)
        rw [install_isValid_self]
        constructor
        · rintro (hm | ⟨_, hg⟩)
          · exact absurd hm hmem
          · left
            have : h = g := of_decide_eq_true hg
            rw [this]
            exact List.mem_cons_self _ _
        · rintro (hm | ⟨hnm, _⟩)
          · rcases List.mem_cons.mp hm with hc | hc
            · right
              refine ⟨by simpa [Entity.eidx] using hni, ?_⟩
              have : h = g := by cases hc; rfl
              simp [this]
            · exact absurd hc hmem
          · have hj2 : j ∈ List.map Entity.eidx (Entity.mk j g :: rest) := by
              simp [Entity.eidx]
            exact absurd hj2 hnm
      · rw [install_isValid_ne _ _ _ _ _ hji]
        constructor
        · rintro (hm | ⟨hnm, hv⟩)
          · exact Or.inl (List.mem_cons_of_mem _ hm)
          · refine Or.inr ⟨?_, hv⟩
            intro hc
            rcases List.mem_cons.mp hc with hc' | hc'
            · exact hji hc'
            · exact hnm hc'
        · rintro (hm | ⟨hnm, hv⟩)
          · rcases List.mem_cons.mp hm with hc | hc
            · exact absurd (congrArg Entity.eidx hc) hji
            · exact Or.inl hc
          · exact Or.inr ⟨fun hc => hnm (List.mem_cons_of_mem _ hc), hv⟩

end Allocator

theorem entity_contains_iff (l : List Entity) (e : Entity) :
    l.contains e = true ↔ e ∈ l := by
  simp [List.contains, List.elem_iff]

/-- C1: full-loader round trip: serializing a well-formed registry R with
the Snapshot Writer and loading the archive with the Snapshot Loader into
an empty registry succeeds and yields R2 agreeing with R on the validity
of every entity handle and on every component store (hence on all
component field values), so every view yields the same tuples in both
registries. -/
theorem snapshot_roundtrip (R : Registry) (h : R.WF) :
    ∃ R2, snapshotLoad (snapshotWrite R).1 = some R2 ∧
      (∀ e, R2.alloc.isValid e = R.alloc.isValid e) ∧
      R2.basicInfo = R.basicInfo ∧ R2.position = R.position ∧
      R2.velocity = R.velocity ∧ R2.shape = R.shape ∧
      R2.relationShip = R.relationShip ∧
      viewPBR R2 = viewPBR R ∧ viewPBV R2 = viewPBV R := by
  obtain ⟨hwf, hbn, hbv, hpn, hpv, hvn, hvv, hsn, hsv, hrn, hrv⟩ := h
  have hkeyvalid : ∀ e ∈ (snapshotWrite R).1.sectionKeys, R.alloc.isValid e = true := by
    intro e he
    simp only [snapshotWrite, Archive.sectionKeys] at he
    rcases List.mem_append.mp he with he' | hrel
    · rcases List.mem_append.mp he' with he'' | hsh
      · rcases List.mem_append.mp he'' with he''' | hvel
        · rcases List.mem_append.mp he''' with hbi | hpos
          · obtain ⟨p, hp, rfl⟩ := List.mem_map.mp hbi
            exact hbv p hp
          · obtain ⟨p, hp, rfl⟩ := List.mem_map.mp hpos
            exact hpv p hp
        · obtain ⟨p, hp, rfl⟩ := List.mem_map.mp hvel
          exact hvv p hp
      · obtain ⟨p, hp, rfl⟩ := List.mem_map.mp hsh
        exact hsv p hp
    · obtain ⟨p, hp, rfl⟩ := List.mem_map.mp hrel
      exact hrv p hp
  have hguard : ((snapshotWrite R).1.sectionKeys.all
      fun e => (snapshotWrite R).1.entities.contains e) = true := by
    rw [List.all_eq_true]
    intro e he
    have hval := hkeyvalid e he
    obtain ⟨j, g', rfl⟩ : ∃ j g', e = Entity.mk j g' := by
      cases e with
      | null => rw [Allocator.isValid_null] at hval; exact Bool.noConfusion hval
      | mk j g' => exact ⟨j, g', rfl⟩
    exact (entity_contains_iff _ _).mpr ((Allocator.mem_live _ _ _).mpr hval)
  refine ⟨{ alloc := (snapshotWrite R).1.entities.foldl Allocator.installEntity
              Allocator.empty,
            basicInfo := (snapshotWrite R).1.basicInfo,
            position := (snapshotWrite R).1.position,
            velocity := (snapshotWrite R).1.velocity,
            shape := (snapshotWrite R).1.shape,
            relationShip := (snapshotWrite R).1.relationShip },
    ?_, ?_, rfl, rfl, rfl, rfl, rfl, rfl, rfl⟩
  · simp only [snapshotLoad, hguard, if_true]
  · intro e
    cases e with
    | null => rfl
    | mk j g' =>
        rw [Bool.eq_iff_iff]
        show ((R.alloc.live).foldl Allocator.installEntity Allocator.empty).isValid
            (Entity.mk j g') = true ↔ R.alloc.isValid (Entity.mk j g') = true
        rw [Allocator.foldl_install_isValid _ _ (Allocator.live_nonnull R.alloc)
          (Allocator.live_eidx_nodup R.alloc)]
        constructor
        · rintro (hm | ⟨_, hv⟩)
          · exact (Allocator.mem_live _ _ _).mp hm
          · rw [Allocator.empty_isValid] at hv
            exact Bool.noConfusion hv
        · intro hv
          exact Or.inl ((Allocator.mem_live _ _ _).mpr hv)

/-- Witness for C1 at the concrete Init registry. -/
theorem snapshot_roundtrip_witness :
    initRegistry.WF ∧
    (∃ R2, snapshotLoad (snapshotWrite initRegistry).1 = some R2 ∧
      (∀ e, R2.alloc.isValid e = initRegistry.alloc.isValid e) ∧
      R2.basicInfo = initRegistry.basicInfo ∧ R2.position = initRegistry.position ∧
      R2.velocity = initRegistry.velocity ∧ R2.shape = initRegistry.shape ∧
      R2.relationShip = initRegistry.relationShip ∧
      viewPBR R2 = viewPBR initRegistry ∧ viewPBV R2 = viewPBV initRegistry) :=
  ⟨by decide, snapshot_roundtrip initRegistry (by decide)⟩

namespace Evolved

theorem refl (a : Allocator) : Evolved a a :=
  ⟨⟨[], (List.append_nil _).symm⟩, ⟨0, rfl⟩⟩

theorem trans {a b c : Allocator} (h1 : Evolved a b) (h2 : Evolved b c) :
    Evolved a c := by
  obtain ⟨⟨e1, he1⟩, ⟨k1, hk1⟩⟩ := h1
  obtain ⟨⟨e2, he2⟩, ⟨k2, hk2⟩⟩ := h2
  refine ⟨⟨e1 ++ e2, ?_⟩, ⟨k1 + k2, ?_⟩⟩
  · rw [he2, he1, List.append_assoc]
  · rw [hk2, hk1, List.drop_drop, Nat.add_comm]

theorem create {a : Allocator} : Evolved a a.create.2 := by
  rcases a with ⟨slots, free⟩
  cases free with
  | nil => exact ⟨⟨[0], rfl⟩, ⟨0, rfl⟩⟩
  | cons i rest => exact ⟨⟨[], (List.append_nil _).symm⟩, ⟨1, rfl⟩⟩

/-- A handle created after evolving from `tgA` was never valid in `tgA`. -/
theorem created_stale_in_base {tgA b : Allocator} (hev : Evolved tgA b) :
    tgA.isValid b.create.1 = false := by
  obtain ⟨⟨ext, hext⟩, ⟨k, hk⟩⟩ := hev
  rcases hb : b.free with _ | ⟨i, rest⟩
  · have : b.create.1 = Entity.mk b.slots.length 0 := by
      rcases b with ⟨s, f⟩
      cases hb
      rfl
    rw [this, Bool.eq_false_iff]
    intro hc
    have hget := ((Allocator.isValid_mk _ _ _).mp hc).1
    have hlen : tgA.slots.length ≤ b.slots.length := by
      rw [hext, List.length_append]
      omega
    rw [List.get?_eq_none.mpr hlen] at hget
    exact Option.noConfusion hget
  · have : b.create.1 = Entity.mk i (b.slots.getD i 0) := by
      rcases b with ⟨s, f⟩
      cases hb
      rfl
    rw [this, Bool.eq_false_iff]
    intro hc
    have hfree := ((Allocator.isValid_mk _ _ _).mp hc).2
    apply hfree
    have : i ∈ b.free := by rw [hb]; exact List.mem_cons_self _ _
    rw [hk] at this
    exact List.drop_subset _ _ this

end Evolved

namespace EMapLemmas

theorem mfind_append_some {m m2 : EMap} {e t : Entity} (h : mfind m e = some t) :
    mfind (m ++ m2) e = some t := by
  induction m with
  | nil => exact Option.noConfusion h
  | cons p rest ih =>
      rcases p with ⟨k, v⟩
      simp only [mfind] at h
      by_cases hk : k = e
      · rw [List.cons_append]
        simp only [mfind, if_pos hk]
        rw [if_pos hk] at h
        exact h
      · rw [List.cons_append]
        simp only [mfind, if_neg hk]
        rw [if_neg hk] at h
        exact ih h

theorem mfind_append_none {m m2 : EMap} {e : Entity} (h : mfind m e = none) :
    mfind (m ++ m2) e = mfind m2 e := by
  induction m with
  | nil => rfl
  | cons p rest ih =>
      rcases p with ⟨k, v⟩
      simp only [mfind] at h
      by_cases hk : k = e
      · rw [if_pos hk] at h
        exact Option.noConfusion h
      · rw [List.cons_append]
        simp only [mfind, if_neg hk]
        rw [if_neg hk] at h
        exact ih h

theorem mfind_mem {m : EMap} {e t : Entity} (h : mfind m e = some t) :
    (e, t) ∈ m := by
  induction m with
  | nil => exact Option.noConfusion h
  | cons p rest ih =>
      rcases p with ⟨k, v⟩
      simp only [mfind] at h
      by_cases hk : k = e
      · rw [if_pos hk] at h
        subst hk
        rw [Option.some_inj.mp h]
        exact List.mem_cons_self _ _
      · rw [if_neg hk] at h
        exact List.mem_cons_of_mem _ (ih h)

theorem mfind_eq_none_iff {m : EMap} {e : Entity} :
    mfind m e = none ↔ e ∉ m.map Prod.fst := by
  induction m with
  | nil => simp [mfind]
  | cons p rest ih =>
      rcases p with ⟨k, v⟩
      simp only [mfind, List.map_cons, List.mem_cons]
      by_cases hk : k = e
      · rw [if_pos hk]
        simp [hk]
      · rw [if_neg hk]
        rw [ih]
        constructor
        · intro hn hc
          rcases hc with hc | hc
          · exact hk hc.symm
          · exact hn hc
        · intro hn
          intro hc
          exact hn (Or.inr hc)

theorem mfind_isSome_of_mem_keys {m : EMap} {e : Entity}
    (h : e ∈ m.map Prod.fst) : ∃ t, mfind m e = some t := by
  rcases hm : mfind m e with _ | t
  · exact absurd (mfind_eq_none_iff.mp hm) (fun hc => hc h)
  · exact ⟨t, rfl⟩

theorem mem_mfind {m : EMap} {e t : Entity} (hnd : (m.map Prod.fst).Nodup)
    (h : (e, t) ∈ m) : mfind m e = some t := by
  induction m with
  | nil => exact absurd h (List.not_mem_nil _)
  | cons p rest ih =>
      rcases p with ⟨k, v⟩
      rw [List.map_cons, List.nodup_cons] at hnd
      rcases List.mem_cons.mp h with hc | hc
      · rw [← hc]
        simp [mfind]
      · simp only [mfind]
        by_cases hk : k = e
        · subst hk
          exact absurd (List.mem_map.mpr ⟨(k, t), hc, rfl⟩) hnd.1
        · rw [if_neg hk]
          exact ih hnd.2 hc

/-- With duplicate-free mapped values, `mfind` is injective. -/
theorem mfind_inj {m : EMap} (hvn : (m.map Prod.snd).Nodup) {e1 e2 t : Entity}
    (h1 : mfind m e1 = some t) (h2 : mfind m e2 = some t) : e1 = e2 := by
  induction m with
  | nil => exact Option.noConfusion h1
  | cons p rest ih =>
      rcases p with ⟨k, v⟩
      rw [List.map_cons, List.nodup_cons] at hvn
      simp only [mfind] at h1 h2
      by_cases hk1 : k = e1
      · rw [if_pos hk1] at h1
        by_cases hk2 : k = e2
        · rw [← hk1, ← hk2]
        · rw [if_neg hk2] at h2
          have hvt : v = t := Option.some_inj.mp h1
          have := mfind_mem h2
          exact absurd (List.mem_map.mpr ⟨(e2, t), this, by rw [hvt]⟩) hvn.1
      · rw [if_neg hk1] at h1
        by_cases hk2 : k = e2
        · rw [if_pos hk2] at h2
          have hvt : v = t := Option.some_inj.mp h2
          have := mfind_mem h1
          exact absurd (List.mem_map.mpr ⟨(e1, t), this, by rw [hvt]⟩) hvn.1
        · rw [if_neg hk2] at h2
          exact ih hvn.2 h1 h2

end EMapLemmas

theorem storeGet_append_some {T : Type} {l1 : List (Entity × T)} (l2 : List (Entity × T))
    {e : Entity} {v : T} (h : storeGet l1 e = some v) :
    storeGet (l1 ++ l2) e = some v := by
  induction l1 with
  | nil => exact Option.noConfusion h
  | cons p rest ih =>
      rcases p with ⟨k, w⟩
      simp only [storeGet] at h
      by_cases hk : k = e
      · rw [List.cons_append]
        simp only [storeGet, if_pos hk]
        rw [if_pos hk] at h
        exact h
      · rw [List.cons_append]
        simp only [storeGet, if_neg hk]
        rw [if_neg hk] at h
        exact ih h

theorem storeGet_append_none {T : Type} {l1 : List (Entity × T)} (l2 : List (Entity × T))
    {e : Entity} (h : storeGet l1 e = none) :
    storeGet (l1 ++ l2) e = storeGet l2 e := by
  induction l1 with
  | nil => rfl
  | cons p rest ih =>
      rcases p with ⟨k, w⟩
      simp only [storeGet] at h
      by_cases hk : k = e
      · rw [if_pos hk] at h
        exact Option.noConfusion h
      · rw [List.cons_append]
        simp only [storeGet, if_neg hk]
        rw [if_neg hk] at h
        exact ih h

theorem storeGet_eq_none_of_keys {T : Type} {l : List (Entity × T)} {e : Entity}
    (h : ∀ k ∈ l.map Prod.fst, k ≠ e) : storeGet l e = none := by
  induction l with
  | nil => rfl
  | cons p rest ih =>
      rcases p with ⟨k, w⟩
      simp only [storeGet]
      rw [if_neg (h k (by simp))]
      exact ih fun k' hk' => h k' (List.mem_cons_of_mem _ hk')

theorem Registry.create_alloc (r : Registry) : r.create.2.alloc = r.alloc.create.2 := rfl

theorem Registry.create_fst (r : Registry) : r.create.1 = r.alloc.create.1 := rfl

theorem resolve_null (r : Registry) (m : EMap) : resolve r m .null = (.null, r, m) := rfl

theorem resolve_mapped (r : Registry) (m : EMap) (e t : Entity) (he : e ≠ .null)
    (h : mfind m e = some t) : resolve r m e = (t, r, m) := by
  cases e with
  | null => exact absurd rfl he
  | mk i g => simp only [resolve, h]

theorem resolve_new (r : Registry) (m : EMap) (e : Entity) (he : e ≠ .null)
    (h : mfind m e = none) :
    resolve r m e = (r.create.1, r.create.2, m ++ [(e, r.create.1)]) := by
  cases e with
  | null => exact absurd rfl he
  | mk i g => simp only [resolve, h]

/-- `resolve` touches no component store. -/
theorem resolve_stores (r : Registry) (m : EMap) (e : Entity) :
    (resolve r m e).2.1.basicInfo = r.basicInfo ∧
    (resolve r m e).2.1.position = r.position ∧
    (resolve r m e).2.1.velocity = r.velocity ∧
    (resolve r m e).2.1.shape = r.shape ∧
    (resolve r m e).2.1.relationShip = r.relationShip := by
  by_cases he : e = .null
  · subst he
    exact ⟨rfl, rfl, rfl, rfl, rfl⟩
  · rcases hm : mfind m e with _ | t
    · rw [resolve_new r m e he hm]
      exact ⟨rfl, rfl, rfl, rfl, rfl⟩
    · rw [resolve_mapped r m e t he hm]
      exact ⟨rfl, rfl, rfl, rfl, rfl⟩

/-- Resolving one identifier preserves the load invariant, extends the
mapping conservatively, and leaves the resolved identifier mapped to the
returned handle. -/
theorem resolve_spec (tgA : Allocator) (r : Registry) (m : EMap) (e : Entity)
    (inv : LInv tgA r.alloc m) :
    LInv tgA (resolve r m e).2.1.alloc (resolve r m e).2.2 ∧
    (∀ k t, mfind m k = some t → mfind (resolve r m e).2.2 k = some t) ∧
    (e ≠ .null → mfind (resolve r m e).2.2 e = some (resolve r m e).1) := by
  by_cases he : e = .null
  · subst he
    rw [resolve_null]
    exact ⟨inv, fun k t h => h, fun hc => absurd rfl hc⟩
  · rcases hm : mfind m e with _ | t
    · rw [resolve_new r m e he hm]
      have hwf := inv.wf
      have hcfresh : r.alloc.isValid r.alloc.create.1 = false :=
        Allocator.create_fresh _
      have hcvalid : r.alloc.create.2.isValid r.alloc.create.1 = true :=
        Allocator.create_sound _ hwf
      have htgfresh : tgA.isValid r.alloc.create.1 = false :=
        Evolved.created_stale_in_base inv.ev
      have hkeynotin : e ∉ m.map Prod.fst := EMapLemmas.mfind_eq_none_iff.mp hm
      have hvalnotin : r.alloc.create.1 ∉ m.map Prod.snd := by
        intro hc
        obtain ⟨p, hp, hpe⟩ := List.mem_map.mp hc
        have := inv.valVal p hp
        rw [hpe, hcfresh] at this
        exact Bool.noConfusion this
      refine ⟨⟨Allocator.create_wf _ hwf, inv.ev.trans Evolved.create, ?_, ?_, ?_, ?_, ?_⟩,
        ?_, ?_⟩
      · rw [List.map_append, List.nodup_append]
        refine ⟨inv.keysN, List.nodup_singleton _, ?_⟩
        intro k hk hk2
        rw [List.map_singleton, List.mem_singleton] at hk2
        subst hk2
        exact hkeynotin hk
      · intro p hp
        rcases List.mem_append.mp hp with hp' | hp'
        · exact inv.keyNN p hp'
        · rw [List.mem_singleton] at hp'
          subst hp'
          exact he
      · intro p hp
        rw [Registry.create_alloc]
        rcases List.mem_append.mp hp with hp' | hp'
        · exact Allocator.create_preserves _ _ (inv.valVal p hp')
        · rw [List.mem_singleton] at hp'
          subst hp'
          rw [Registry.create_fst]
          exact hcvalid
      · intro p hp
        rcases List.mem_append.mp hp with hp' | hp'
        · exact inv.valFresh p hp'
        · rw [List.mem_singleton] at hp'
          subst hp'
          rw [Registry.create_fst]
          exact htgfresh
      · rw [List.map_append, List.nodup_append]
        refine ⟨inv.valsN, List.nodup_singleton _, ?_⟩
        intro v hv hv2
        rw [List.map_singleton, List.mem_singleton] at hv2
        subst hv2
        rw [Registry.create_fst] at hv
        exact hvalnotin hv
      · intro k t h
        exact EMapLemmas.mfind_append_some h
      · intro _
        rw [EMapLemmas.mfind_append_none hm]
        simp [mfind]
    · rw [resolve_mapped r m e t he hm]
      exact ⟨inv, fun k t' h => h, fun _ => hm⟩

theorem resolveList_cons_eq (r : Registry) (m : EMap) (e : Entity) (rest : List Entity) :
    resolveList r m (e :: rest) =
      ((resolve r m e).1 ::
          (resolveList (resolve r m e).2.1 (resolve r m e).2.2 rest).1,
        (resolveList (resolve r m e).2.1 (resolve r m e).2.2 rest).2) := by
  simp only [resolveList]

/-- Resolving a list of references preserves the load invariant, extends
the mapping conservatively, leaves every input resolved (null to null,
non-null via the mapping), and touches no store. -/
theorem resolveList_spec (tgA : Allocator) (es : List Entity) :
    ∀ (r : Registry) (m : EMap), LInv tgA r.alloc m →
    LInv tgA (resolveList r m es).2.1.alloc (resolveList r m es).2.2 ∧
    (∀ k t, mfind m k = some t → mfind (resolveList r m es).2.2 k = some t) ∧
    List.Forall₂ (fun c t => (c = Entity.null ∧ t = Entity.null) ∨
      (c ≠ Entity.null ∧ mfind (resolveList r m es).2.2 c = some t)) es
      (resolveList r m es).1 ∧
    ((resolveList r m es).2.1.basicInfo = r.basicInfo ∧
     (resolveList r m es).2.1.position = r.position ∧
     (resolveList r m es).2.1.velocity = r.velocity ∧
     (resolveList r m es).2.1.shape = r.shape ∧
     (resolveList r m es).2.1.relationShip = r.relationShip) := by
  induction es with
  | nil =>
      intro r m inv
      exact ⟨inv, fun k t h => h, List.Forall₂.nil, rfl, rfl, rfl, rfl, rfl⟩
  | cons e rest ih =>
      intro r m inv
      obtain ⟨inv1, stab1, mapped1⟩ := resolve_spec tgA r m e inv
      obtain ⟨hb1, hp1, hv1, hs1, hr1⟩ := resolve_stores r m e
      obtain ⟨inv2, stab2, fa2, hb2, hp2, hv2, hs2, hr2⟩ :=
        ih (resolve r m e).2.1 (resolve r m e).2.2 inv1
      rw [resolveList_cons_eq]
      refine ⟨inv2, ?_, ?_, ?_, ?_, ?_, ?_, ?_⟩
      · intro k t h
        exact stab2 k t (stab1 k t h)
      · apply List.Forall₂.cons
        · by_cases he : e = Entity.null
          · subst he
            rw [resolve_null]
            exact Or.inl ⟨rfl, rfl⟩
          · exact Or.inr ⟨he, stab2 _ _ (mapped1 he)⟩
        · exact fa2
      · rw [hb2, hb1]
      · rw [hp2, hp1]
      · rw [hv2, hv1]
      · rw [hs2, hs1]
      · rw [hr2, hr1]

/-- The entities phase of a continuous load: every archived identifier
gets mapped, the invariant is preserved, and no store changes. -/
theorem resolveFold_spec (tgA : Allocator) (es : List Entity) :
    ∀ (r : Registry) (m : EMap), LInv tgA r.alloc m →
    LInv tgA (es.foldl (fun st e => (resolve st.1 st.2 e).2) (r, m)).1.alloc
        (es.foldl (fun st e => (resolve st.1 st.2 e).2) (r, m)).2 ∧
    (∀ k t, mfind m k = some t →
      mfind (es.foldl (fun st e => (resolve st.1 st.2 e).2) (r, m)).2 k = some t) ∧
    (∀ e ∈ es, e ≠ .null →
      ∃ t, mfind (es.foldl (fun st e => (resolve st.1 st.2 e).2) (r, m)).2 e = some t) ∧
    ((es.foldl (fun st e => (resolve st.1 st.2 e).2) (r, m)).1.basicInfo = r.basicInfo ∧
     (es.foldl (fun st e => (resolve st.1 st.2 e).2) (r, m)).1.position = r.position ∧
     (es.foldl (fun st e => (resolve st.1 st.2 e).2) (r, m)).1.velocity = r.velocity ∧
     (es.foldl (fun st e => (resolve st.1 st.2 e).2) (r, m)).1.shape = r.shape ∧
     (es.foldl (fun st e => (resolve st.1 st.2 e).2) (r, m)).1.relationShip
        = r.relationShip) := by
  induction es with
  | nil =>
      intro r m inv
      exact ⟨inv, fun k t h => h, fun e he => absurd he (List.not_mem_nil e),
        rfl, rfl, rfl, rfl, rfl⟩
  | cons e rest ih =>
      intro r m inv
      obtain ⟨inv1, stab1, mapped1⟩ := resolve_spec tgA r m e inv
      obtain ⟨hb1, hp1, hv1, hs1, hr1⟩ := resolve_stores r m e
      obtain ⟨inv2, stab2, mapped2, hb2, hp2, hv2, hs2, hr2⟩ :=
        ih (resolve r m e).2.1 (resolve r m e).2.2 inv1
      rw [List.foldl_cons]
      refine ⟨inv2, ?_, ?_, ?_, ?_, ?_, ?_, ?_⟩
      · intro k t h
        exact stab2 k t (stab1 k t h)
      · intro f hf hfn
        rcases List.mem_cons.mp hf with hc | hc
        · subst hc
          obtain ⟨t, ht⟩ : ∃ t, mfind (resolve r m f).2.2 f = some t :=
            ⟨(resolve r m f).1, mapped1 hfn⟩
          exact ⟨t, stab2 _ _ ht⟩
        · exact mapped2 f hc hfn
      · rw [hb2, hb1]
      · rw [hp2, hp1]
      · rw [hv2, hv1]
      · rw [hs2, hs1]
      · rw [hr2, hr1]

theorem loadPlain_cons_eq {T : Type} (upd : Registry → Entity → T → Registry)
    (e : Entity) (v : T) (rest : List (Entity × T)) (r : Registry) (m : EMap) :
    loadPlain upd ((e, v) :: rest) (r, m) =
      loadPlain upd rest
        (upd (resolve r m e).2.1 (resolve r m e).1 v, (resolve r m e).2.2) := by
  simp only [loadPlain]

/-- Loading one plain component section: the invariant is preserved, the
mapping grows conservatively, the section's store only grows by appended
entries, and afterwards every archived pair is found in the target store
under the mapped owner. -/
theorem loadPlain_spec {T : Type} (upd : Registry → Entity → T → Registry)
    (proj : Registry → List (Entity × T))
    (halloc : ∀ r t v, (upd r t v).alloc = r.alloc)
    (hproj : ∀ r t v, proj (upd r t v) = proj r ++ [(t, v)])
    (hres : ∀ r m e, proj (resolve r m e).2.1 = proj r)
    (tgA : Allocator) (sec : List (Entity × T)) :
    ∀ (r : Registry) (m : EMap), LInv tgA r.alloc m →
    (sec.map Prod.fst).Nodup → (∀ p ∈ sec, p.1 ≠ Entity.null) →
    (∀ k ∈ (proj r).map Prod.fst, tgA.isValid k = true ∨
      ∃ e', e' ∉ sec.map Prod.fst ∧ mfind m e' = some k) →
    LInv tgA (loadPlain upd sec (r, m)).1.alloc (loadPlain upd sec (r, m)).2 ∧
    (∀ k t, mfind m k = some t → mfind (loadPlain upd sec (r, m)).2 k = some t) ∧
    (∃ ext, proj (loadPlain upd sec (r, m)).1 = proj r ++ ext) ∧
    (∀ p ∈ sec, ∃ t, mfind (loadPlain upd sec (r, m)).2 p.1 = some t ∧
      storeGet (proj (loadPlain upd sec (r, m)).1) t = some p.2) := by
  induction sec with
  | nil =>
      intro r m inv _ _ _
      exact ⟨inv, fun k t h => h, ⟨[], (List.append_nil _).symm⟩,
        fun p hp => absurd hp (List.not_mem_nil p)⟩
  | cons pv rest ih =>
      rcases pv with ⟨e, v⟩
      intro r m inv hnd hnn hkeys
      rw [List.map_cons, List.nodup_cons] at hnd
      obtain ⟨henotin, hndr⟩ := hnd
      have henn : e ≠ Entity.null := hnn (e, v) (List.mem_cons_self _ _)
      obtain ⟨inv1, stab1, mapped1⟩ := resolve_spec tgA r m e inv
      have ht : mfind (resolve r m e).2.2 e = some (resolve r m e).1 := mapped1 henn
      have htfresh : tgA.isValid (resolve r m e).1 = false :=
        inv1.valFresh _ (EMapLemmas.mfind_mem ht)
      have inv1' : LInv tgA (upd (resolve r m e).2.1 (resolve r m e).1 v).alloc
          (resolve r m e).2.2 := by
        rw [halloc]
        exact inv1
      have hstore1 : proj (upd (resolve r m e).2.1 (resolve r m e).1 v)
          = proj r ++ [((resolve r m e).1, v)] := by
        rw [hproj, hres]
      have hkeys' : ∀ k ∈ (proj (upd (resolve r m e).2.1 (resolve r m e).1 v)).map
          Prod.fst, tgA.isValid k = true ∨
          ∃ e', e' ∉ rest.map Prod.fst ∧ mfind (resolve r m e).2.2 e' = some k := by
        intro k hk
        rw [hstore1, List.map_append, List.map_singleton] at hk
        rcases List.mem_append.mp hk with hk' | hk'
        · rcases hkeys k hk' with hv' | ⟨e', hne', hm'⟩
          · exact Or.inl hv'
          · refine Or.inr ⟨e', ?_, stab1 _ _ hm'⟩
            intro hc
            exact hne' (List.mem_cons_of_mem _ hc)
        · rw [List.mem_singleton] at hk'
          subst hk'
          exact Or.inr ⟨e, henotin, ht⟩
      obtain ⟨inv2, stab2, ⟨ext2, hext2⟩, lookup2⟩ :=
        ih (upd (resolve r m e).2.1 (resolve r m e).1 v) (resolve r m e).2.2
          inv1' hndr (fun p hp => hnn p (List.mem_cons_of_mem _ hp)) hkeys'
      rw [loadPlain_cons_eq]
      refine ⟨inv2, ?_, ?_, ?_⟩
      · intro k t h
        exact stab2 k t (stab1 k t h)
      · refine ⟨((resolve r m e).1, v) :: ext2, ?_⟩
        rw [hext2, hstore1, List.append_assoc]
        rfl
      · intro p hp
        rcases List.mem_cons.mp hp with hc | hc
        · subst hc
          refine ⟨(resolve r m e).1, stab2 _ _ ht, ?_⟩
          have hnone : storeGet (proj r) (resolve r m e).1 = none := by
            apply storeGet_eq_none_of_keys
            intro k hk hke
            rcases hkeys k hk with hv' | ⟨e', hne', hm'⟩
            · rw [hke, htfresh] at hv'
              exact Bool.noConfusion hv'
            · have hm1 : mfind (resolve r m e).2.2 e' = some k := stab1 _ _ hm'
              rw [hke] at hm1
              have : e' = e := EMapLemmas.mfind_inj inv1.valsN hm1 ht
              subst this
              exact hne' (List.mem_cons_self _ _)
          rw [hext2, hstore1, List.append_assoc,
            storeGet_append_none _ hnone]
          show storeGet ((((resolve r m e).1, v)) :: ext2) (resolve r m e).1 = some v
          simp [storeGet]
        · exact lookup2 p hc

theorem loadPlain_keeps {T : Type} {α : Type} (upd : Registry → Entity → T → Registry)
    (proj2 : Registry → α)
    (hres2 : ∀ r m e, proj2 (resolve r m e).2.1 = proj2 r)
    (hupd2 : ∀ r t v, proj2 (upd r t v) = proj2 r)
    (sec : List (Entity × T)) :
    ∀ (r : Registry) (m : EMap), proj2 (loadPlain upd sec (r, m)).1 = proj2 r := by
  induction sec with
  | nil => intro r m; rfl
  | cons pv rest ih =>
      rcases pv with ⟨e, v⟩
      intro r m
      rw [loadPlain_cons_eq, ih, hupd2, hres2]


theorem remapId_null (m : EMap) : remapId m .null = .null := rfl

theorem remapId_of_mfind {m : EMap} {e t : Entity} (he : e ≠ .null)
    (h : mfind m e = some t) : remapId m e = t := by
  cases e with
  | null => exact absurd rfl he
  | mk i g => simp [remapId, h]

theorem forall₂_remap_eq (mOut : EMap) {es ts : List Entity}
    (h : List.Forall₂ (fun c t => (c = Entity.null ∧ t = Entity.null) ∨
      (c ≠ Entity.null ∧ mfind mOut c = some t)) es ts) :
    ts = es.map (remapId mOut) := by
  induction h with
  | nil => rfl
  | @cons c t es' ts' hct htail ih =>
      rw [List.map_cons, ih]
      rcases hct with ⟨hc, ht⟩ | ⟨hc, hm⟩
      · rw [hc, ht]
        rfl
      · rw [remapId_of_mfind hc hm]

theorem forall₂_mem_left {R : Entity → Entity → Prop} {es ts : List Entity}
    (h : List.Forall₂ R es ts) {c : Entity} (hc : c ∈ es) : ∃ t, R c t := by
  induction h with
  | nil => exact absurd hc (List.not_mem_nil c)
  | @cons c' t' es' ts' hct htail ih =>
      rcases List.mem_cons.mp hc with hcc | hcc
      · subst hcc
        exact ⟨t', hct⟩
      · exact ih hcc

theorem resolveList_stores (es : List Entity) :
    ∀ (r : Registry) (m : EMap),
    (resolveList r m es).2.1.basicInfo = r.basicInfo ∧
    (resolveList r m es).2.1.position = r.position ∧
    (resolveList r m es).2.1.velocity = r.velocity ∧
    (resolveList r m es).2.1.shape = r.shape ∧
    (resolveList r m es).2.1.relationShip = r.relationShip := by
  induction es with
  | nil => exact fun r m => ⟨rfl, rfl, rfl, rfl, rfl⟩
  | cons e rest ih =>
      intro r m
      obtain ⟨hb1, hp1, hv1, hs1, hr1⟩ := resolve_stores r m e
      obtain ⟨hb2, hp2, hv2, hs2, hr2⟩ :=
        ih (resolve r m e).2.1 (resolve r m e).2.2
      rw [resolveList_cons_eq]
      exact ⟨hb2.trans hb1, hp2.trans hp1, hv2.trans hv1, hs2.trans hs1,
        hr2.trans hr1⟩

/-- Loading the RelationShip section: invariant preserved, mapping grown
conservatively, store grown by appends, and afterwards every archived
pair is found under the mapped owner with both reference fields rewritten
through the final mapping; moreover every reference that occurs was
resolved into the mapping. -/
theorem loadRel_spec (tgA : Allocator) (sec : List (Entity × RelationShip)) :
    ∀ (r : Registry) (m : EMap), LInv tgA r.alloc m →
    (sec.map Prod.fst).Nodup → (∀ p ∈ sec, p.1 ≠ Entity.null) →
    (∀ k ∈ r.relationShip.map Prod.fst, tgA.isValid k = true ∨
      ∃ e', e' ∉ sec.map Prod.fst ∧ mfind m e' = some k) →
    LInv tgA (loadRel sec (r, m)).1.alloc (loadRel sec (r, m)).2 ∧
    (∀ k u, mfind m k = some u → mfind (loadRel sec (r, m)).2 k = some u) ∧
    (∃ ext, (loadRel sec (r, m)).1.relationShip = r.relationShip ++ ext) ∧
    (∀ q ∈ sec, ∃ t, mfind (loadRel sec (r, m)).2 q.1 = some t ∧
      storeGet (loadRel sec (r, m)).1.relationShip t =
        some ⟨remapId (loadRel sec (r, m)).2 q.2.parent,
              q.2.children.map (remapId (loadRel sec (r, m)).2)⟩) ∧
    (∀ q ∈ sec, (q.2.parent ≠ Entity.null →
        ∃ u, mfind (loadRel sec (r, m)).2 q.2.parent = some u) ∧
      (∀ c ∈ q.2.children, c ≠ Entity.null →
        ∃ u, mfind (loadRel sec (r, m)).2 c = some u)) := by
  induction sec with
  | nil =>
      intro r m inv _ _ _
      exact ⟨inv, fun k u h => h, ⟨[], (List.append_nil _).symm⟩,
        fun q hq => absurd hq (List.not_mem_nil q),
        fun q hq => absurd hq (List.not_mem_nil q)⟩
  | cons pv rest ih =>
      rcases pv with ⟨e, v⟩
      intro r m inv hnd hnn hkeys
      rw [List.map_cons, List.nodup_cons] at hnd
      obtain ⟨henotin, hndr⟩ := hnd
      have henn : e ≠ Entity.null := hnn (e, v) (List.mem_cons_self _ _)
      rcases h1 : resolve r m e with ⟨t, r1, m1⟩
      rcases h2 : resolve r1 m1 v.parent with ⟨p, r2, m2⟩
      rcases h3 : resolveList r2 m2 v.children with ⟨cs, r3, m3⟩
      have hred : loadRel ((e, v) :: rest) (r, m)
          = loadRel rest (r3.emplaceRelationShip t ⟨p, cs⟩, m3) := by
        simp only [loadRel, h1, h2, h3]
      have s1 := resolve_spec tgA r m e inv
      have st1 := resolve_stores r m e
      rw [h1] at s1 st1
      have inv1 : LInv tgA r1.alloc m1 := s1.1
      have stab1 : ∀ k u, mfind m k = some u → mfind m1 k = some u := s1.2.1
      have ht : mfind m1 e = some t := s1.2.2 henn
      have hrel1 : r1.relationShip = r.relationShip := st1.2.2.2.2
      have s2 := resolve_spec tgA r1 m1 v.parent inv1
      have st2 := resolve_stores r1 m1 v.parent
      rw [h2] at s2 st2
      have inv2 : LInv tgA r2.alloc m2 := s2.1
      have stab2 : ∀ k u, mfind m1 k = some u → mfind m2 k = some u := s2.2.1
      have hparent : v.parent ≠ Entity.null → mfind m2 v.parent = some p := s2.2.2
      have hparentnull : v.parent = Entity.null → p = Entity.null := by
        intro hpn
        rw [hpn, resolve_null] at h2
        exact (congrArg Prod.fst h2).symm
      have hrel2 : r2.relationShip = r1.relationShip := st2.2.2.2.2
      have s3 := resolveList_spec tgA v.children r2 m2 inv2
      have st3 := resolveList_stores v.children r2 m2
      rw [h3] at s3 st3
      have inv3 : LInv tgA r3.alloc m3 := s3.1
      have stab3 : ∀ k u, mfind m2 k = some u → mfind m3 k = some u := s3.2.1
      have fa3 : List.Forall₂ (fun c u => (c = Entity.null ∧ u = Entity.null) ∨
          (c ≠ Entity.null ∧ mfind m3 c = some u)) v.children cs := s3.2.2.1
      have hrel3 : r3.relationShip = r2.relationShip := st3.2.2.2.2
      have inv3' : LInv tgA (r3.emplaceRelationShip t ⟨p, cs⟩).alloc m3 := inv3
      have hrelE : (r3.emplaceRelationShip t ⟨p, cs⟩).relationShip
          = r.relationShip ++ [(t, ⟨p, cs⟩)] := by
        show r3.relationShip ++ [(t, ⟨p, cs⟩)] = _
        rw [hrel3, hrel2, hrel1]
      have htfresh : tgA.isValid t = false :=
        inv1.valFresh _ (EMapLemmas.mfind_mem ht)
      have htm3 : mfind m3 e = some t := stab3 _ _ (stab2 _ _ ht)
      have hkeys' : ∀ k ∈ (r3.emplaceRelationShip t ⟨p, cs⟩).relationShip.map Prod.fst,
          tgA.isValid k = true ∨
          ∃ e', e' ∉ rest.map Prod.fst ∧ mfind m3 e' = some k := by
        intro k hk
        rw [hrelE, List.map_append, List.map_singleton] at hk
        rcases List.mem_append.mp hk with hk' | hk'
        · rcases hkeys k hk' with hv' | ⟨e', hne', hm'⟩
          · exact Or.inl hv'
          · exact Or.inr ⟨e', fun hc => hne' (List.mem_cons_of_mem _ hc),
              stab3 _ _ (stab2 _ _ (stab1 _ _ hm'))⟩
        · rw [List.mem_singleton] at hk'
          subst hk'
          exact Or.inr ⟨e, henotin, htm3⟩
      obtain ⟨invO, stabO, ⟨ext, hext⟩, lookupO, refsO⟩ :=
        ih (r3.emplaceRelationShip t ⟨p, cs⟩) m3 inv3' hndr
          (fun q hq => hnn q (List.mem_cons_of_mem _ hq)) hkeys'
      rw [hred]
      refine ⟨invO, ?_, ?_, ?_, ?_⟩
      · exact fun k u h => stabO k u (stab3 _ _ (stab2 _ _ (stab1 _ _ h)))
      · refine ⟨(t, ⟨p, cs⟩) :: ext, ?_⟩
        rw [hext, hrelE, List.append_assoc]
        rfl
      · intro q hq
        rcases List.mem_cons.mp hq with hc | hc
        · subst hc
          refine ⟨t, stabO _ _ htm3, ?_⟩
          have hpOut : remapId (loadRel rest
              (r3.emplaceRelationShip t ⟨p, cs⟩, m3)).2 v.parent = p := by
            by_cases hpn : v.parent = Entity.null
            · rw [hpn, remapId_null, hparentnull hpn]
            · exact remapId_of_mfind hpn (stabO _ _ (stab3 _ _ (hparent hpn)))
          have hcsOut : cs = v.children.map (remapId (loadRel rest
              (r3.emplaceRelationShip t ⟨p, cs⟩, m3)).2) := by
            apply forall₂_remap_eq
            apply fa3.imp
            intro c u hcu
            rcases hcu with ⟨hc1, hc2⟩ | ⟨hc1, hc2⟩
            · exact Or.inl ⟨hc1, hc2⟩
            · exact Or.inr ⟨hc1, stabO _ _ hc2⟩
          have hnone : storeGet r.relationShip t = none := by
            apply storeGet_eq_none_of_keys
            intro k hk hke
            rcases hkeys k hk with hv' | ⟨e', hne', hm'⟩
            · rw [hke, htfresh] at hv'
              exact Bool.noConfusion hv'
            · have hm1 : mfind m1 e' = some k := stab1 _ _ hm'
              rw [hke] at hm1
              have : e' = e := EMapLemmas.mfind_inj inv1.valsN hm1 ht
              subst this
              exact hne' (List.mem_cons_self _ _)
          rw [hext, hrelE, List.append_assoc, storeGet_append_none _ hnone]
          show storeGet ((t, ⟨p, cs⟩) :: ext) t = _
          rw [hpOut, ← hcsOut]
          simp [storeGet]
        · exact lookupO q hc
      · intro q hq
        rcases List.mem_cons.mp hq with hc | hc
        · subst hc
          constructor
          · intro hpn
            exact ⟨p, stabO _ _ (stab3 _ _ (hparent hpn))⟩
          · intro c hcc hcn
            obtain ⟨u, hu⟩ := forall₂_mem_left fa3 hcc
            rcases hu with ⟨hcnull, _⟩ | ⟨_, hm⟩
            · exact absurd hcnull hcn
            · exact ⟨u, stabO _ _ hm⟩
        · exact refsO q hc

theorem loadRel_keeps (sec : List (Entity × RelationShip)) :
    ∀ (r : Registry) (m : EMap),
    (loadRel sec (r, m)).1.basicInfo = r.basicInfo ∧
    (loadRel sec (r, m)).1.position = r.position ∧
    (loadRel sec (r, m)).1.velocity = r.velocity ∧
    (loadRel sec (r, m)).1.shape = r.shape := by
  induction sec with
  | nil => exact fun r m => ⟨rfl, rfl, rfl, rfl⟩
  | cons pv rest ih =>
      rcases pv with ⟨e, v⟩
      intro r m
      rcases h1 : resolve r m e with ⟨t, r1, m1⟩
      rcases h2 : resolve r1 m1 v.parent with ⟨p, r2, m2⟩
      rcases h3 : resolveList r2 m2 v.children with ⟨cs, r3, m3⟩
      have hred : loadRel ((e, v) :: rest) (r, m)
          = loadRel rest (r3.emplaceRelationShip t ⟨p, cs⟩, m3) := by
        simp only [loadRel, h1, h2, h3]
      have st1 := resolve_stores r m e
      rw [h1] at st1
      have st2 := resolve_stores r1 m1 v.parent
      rw [h2] at st2
      have st3 := resolveList_stores v.children r2 m2
      rw [h3] at st3
      obtain ⟨ihb, ihp, ihv, ihs⟩ := ih (r3.emplaceRelationShip t ⟨p, cs⟩) m3
      rw [hred]
      refine ⟨?_, ?_, ?_, ?_⟩
      · rw [ihb]
        show r3.basicInfo = r.basicInfo
        rw [st3.1, st2.1, st1.1]
      · rw [ihp]
        show r3.position = r.position
        rw [st3.2.1, st2.2.1, st1.2.1]
      · rw [ihv]
        show r3.velocity = r.velocity
        rw [st3.2.2.1, st2.2.2.1, st1.2.2.1]
      · rw [ihs]
        show r3.shape = r.shape
        rw [st3.2.2.2.1, st2.2.2.2.1, st1.2.2.2.1]

/-- The full continuous load: the invariant holds at the end, every
archived entity and reference is mapped, and every archived component
value is found in the target under the mapped owner, with RelationShip
reference fields rewritten through the final mapping. -/
theorem continuousLoad_spec (ar : Archive) (tg : Registry)
    (htg : tg.WF) (har : ar.WF) :
    LInv tg.alloc (continuousLoad ar tg).1.alloc (continuousLoad ar tg).2 ∧
    (∀ e ∈ ar.entities, e ≠ Entity.null →
      ∃ t, mfind (continuousLoad ar tg).2 e = some t) ∧
    (∀ p ∈ ar.basicInfo, ∃ t, mfind (continuousLoad ar tg).2 p.1 = some t ∧
      storeGet (continuousLoad ar tg).1.basicInfo t = some p.2) ∧
    (∀ p ∈ ar.position, ∃ t, mfind (continuousLoad ar tg).2 p.1 = some t ∧
      storeGet (continuousLoad ar tg).1.position t = some p.2) ∧
    (∀ p ∈ ar.velocity, ∃ t, mfind (continuousLoad ar tg).2 p.1 = some t ∧
      storeGet (continuousLoad ar tg).1.velocity t = some p.2) ∧
    (∀ p ∈ ar.shape, ∃ t, mfind (continuousLoad ar tg).2 p.1 = some t ∧
      storeGet (continuousLoad ar tg).1.shape t = some p.2) ∧
    (∀ q ∈ ar.relationShip, ∃ t, mfind (continuousLoad ar tg).2 q.1 = some t ∧
      storeGet (continuousLoad ar tg).1.relationShip t =
        some ⟨remapId (continuousLoad ar tg).2 q.2.parent,
              q.2.children.map (remapId (continuousLoad ar tg).2)⟩) ∧
    (∀ q ∈ ar.relationShip, (q.2.parent ≠ Entity.null →
        ∃ u, mfind (continuousLoad ar tg).2 q.2.parent = some u) ∧
      (∀ c ∈ q.2.children, c ≠ Entity.null →
        ∃ u, mfind (continuousLoad ar tg).2 c = some u)) := by
  obtain ⟨harE, hbn, hbz, hpn, hpz, hvn, hvz, hsn, hsz, hrn, hrz⟩ := har
  obtain ⟨htga, htgb, htgbv, htgp, htgpv, htgv, htgvv, htgs, htgsv, htgr, htgrv⟩ := htg
  set st0 := ar.entities.foldl (fun st e => (resolve st.1 st.2 e).2)
    (tg, ([] : EMap)) with hst0def
  set st1 := loadPlain Registry.emplaceBasicInfo ar.basicInfo st0 with hst1def
  set st2 := loadPlain Registry.emplacePosition ar.position st1 with hst2def
  set st3 := loadPlain Registry.emplaceVelocity ar.velocity st2 with hst3def
  set st4 := loadPlain Registry.emplaceShape ar.shape st3 with hst4def
  have hout : continuousLoad ar tg = loadRel ar.relationShip st4 := rfl
  have inv0 : LInv tg.alloc tg.alloc ([] : EMap) :=
    ⟨htga, Evolved.refl _, List.nodup_nil,
      fun p hp => absurd hp (List.not_mem_nil p),
      fun p hp => absurd hp (List.not_mem_nil p),
      fun p hp => absurd hp (List.not_mem_nil p), List.nodup_nil⟩
  obtain ⟨i0, _, mapped0, b0, p0, v0, s0, r0⟩ :=
    resolveFold_spec tg.alloc ar.entities tg [] inv0
  rw [← hst0def] at mapped0 b0 p0 v0 s0 r0
  have inv0' : LInv tg.alloc st0.1.alloc st0.2 := i0
  -- stage 1: BasicInfo
  obtain ⟨i1, stab1, ⟨extb, hextb⟩, lookup1⟩ :=
    loadPlain_spec Registry.emplaceBasicInfo (fun r => r.basicInfo)
      (fun _ _ _ => rfl) (fun _ _ _ => rfl)
      (fun r m e => (resolve_stores r m e).1) tg.alloc ar.basicInfo
      st0.1 st0.2 inv0' hbn hbz
      (by
        intro k hk
        have hk2 : k ∈ List.map Prod.fst st0.1.basicInfo := hk
        rw [b0] at hk2
        obtain ⟨q, hq, rfl⟩ := List.mem_map.mp hk2
        exact Or.inl (htgbv q hq))
  have inv1 : LInv tg.alloc st1.1.alloc st1.2 := i1
  have k1p : st1.1.position = st0.1.position :=
    loadPlain_keeps Registry.emplaceBasicInfo (fun r => r.position)
      (fun r m e => (resolve_stores r m e).2.1) (fun _ _ _ => rfl)
      ar.basicInfo st0.1 st0.2
  have k1v : st1.1.velocity = st0.1.velocity :=
    loadPlain_keeps Registry.emplaceBasicInfo (fun r => r.velocity)
      (fun r m e => (resolve_stores r m e).2.2.1) (fun _ _ _ => rfl)
      ar.basicInfo st0.1 st0.2
  have k1s : st1.1.shape = st0.1.shape :=
    loadPlain_keeps Registry.emplaceBasicInfo (fun r => r.shape)
      (fun r m e => (resolve_stores r m e).2.2.2.1) (fun _ _ _ => rfl)
      ar.basicInfo st0.1 st0.2
  have k1r : st1.1.relationShip = st0.1.relationShip :=
    loadPlain_keeps Registry.emplaceBasicInfo (fun r => r.relationShip)
      (fun r m e => (resolve_stores r m e).2.2.2.2) (fun _ _ _ => rfl)
      ar.basicInfo st0.1 st0.2
  -- stage 2: Position
  obtain ⟨i2, stab2, ⟨extp, hextp⟩, lookup2⟩ :=
    loadPlain_spec Registry.emplacePosition (fun r => r.position)
      (fun _ _ _ => rfl) (fun _ _ _ => rfl)
      (fun r m e => (resolve_stores r m e).2.1) tg.alloc ar.position
      st1.1 st1.2 inv1 hpn hpz
      (by
        intro k hk
        have hk2 : k ∈ List.map Prod.fst st1.1.position := hk
        rw [k1p, p0] at hk2
        obtain ⟨q, hq, rfl⟩ := List.mem_map.mp hk2
        exact Or.inl (htgpv q hq))
  have inv2 : LInv tg.alloc st2.1.alloc st2.2 := i2
  have k2b : st2.1.basicInfo = st1.1.basicInfo :=
    loadPlain_keeps Registry.emplacePosition (fun r => r.basicInfo)
      (fun r m e => (resolve_stores r m e).1) (fun _ _ _ => rfl)
      ar.position st1.1 st1.2
  have k2v : st2.1.velocity = st1.1.velocity :=
    loadPlain_keeps Registry.emplacePosition (fun r => r.velocity)
      (fun r m e => (resolve_stores r m e).2.2.1) (fun _ _ _ => rfl)
      ar.position st1.1 st1.2
  have k2s : st2.1.shape = st1.1.shape :=
    loadPlain_keeps Registry.emplacePosition (fun r => r.shape)
      (fun r m e => (resolve_stores r m e).2.2.2.1) (fun _ _ _ => rfl)
      ar.position st1.1 st1.2
  have k2r : st2.1.relationShip = st1.1.relationShip :=
    loadPlain_keeps Registry.emplacePosition (fun r => r.relationShip)
      (fun r m e => (resolve_stores r m e).2.2.2.2) (fun _ _ _ => rfl)
      ar.position st1.1 st1.2
  -- stage 3: Velocity
  obtain ⟨i3, stab3, ⟨extv, hextv⟩, lookup3⟩ :=
    loadPlain_spec Registry.emplaceVelocity (fun r => r.velocity)
      (fun _ _ _ => rfl) (fun _ _ _ => rfl)
      (fun r m e => (resolve_stores r m e).2.2.1) tg.alloc ar.velocity
      st2.1 st2.2 inv2 hvn hvz
      (by
        intro k hk
        have hk2 : k ∈ List.map Prod.fst st2.1.velocity := hk
        rw [k2v, k1v, v0] at hk2
        obtain ⟨q, hq, rfl⟩ := List.mem_map.mp hk2
        exact Or.inl (htgvv q hq))
  have inv3 : LInv tg.alloc st3.1.alloc st3.2 := i3
  have k3b : st3.1.basicInfo = st2.1.basicInfo :=
    loadPlain_keeps Registry.emplaceVelocity (fun r => r.basicInfo)
      (fun r m e => (resolve_stores r m e).1) (fun _ _ _ => rfl)
      ar.velocity st2.1 st2.2
  have k3p : st3.1.position = st2.1.position :=
    loadPlain_keeps Registry.emplaceVelocity (fun r => r.position)
      (fun r m e => (resolve_stores r m e).2.1) (fun _ _ _ => rfl)
      ar.velocity st2.1 st2.2
  have k3s : st3.1.shape = st2.1.shape :=
    loadPlain_keeps Registry.emplaceVelocity (fun r => r.shape)
      (fun r m e => (resolve_stores r m e).2.2.2.1) (fun _ _ _ => rfl)
      ar.velocity st2.1 st2.2
  have k3r : st3.1.relationShip = st2.1.relationShip :=
    loadPlain_keeps Registry.emplaceVelocity (fun r => r.relationShip)
      (fun r m e => (resolve_stores r m e).2.2.2.2) (fun _ _ _ => rfl)
      ar.velocity st2.1 st2.2
  -- stage 4: Shape
  obtain ⟨i4, stab4, ⟨exts, hexts⟩, lookup4⟩ :=
    loadPlain_spec Registry.emplaceShape (fun r => r.shape)
      (fun _ _ _ => rfl) (fun _ _ _ => rfl)
      (fun r m e => (resolve_stores r m e).2.2.2.1) tg.alloc ar.shape
      st3.1 st3.2 inv3 hsn hsz
      (by
        intro k hk
        have hk2 : k ∈ List.map Prod.fst st3.1.shape := hk
        rw [k3s, k2s, k1s, s0] at hk2
        obtain ⟨q, hq, rfl⟩ := List.mem_map.mp hk2
        exact Or.inl (htgsv q hq))
  have inv4 : LInv tg.alloc st4.1.alloc st4.2 := i4
  have k4b : st4.1.basicInfo = st3.1.basicInfo :=
    loadPlain_keeps Registry.emplaceShape (fun r => r.basicInfo)
      (fun r m e => (resolve_stores r m e).1) (fun _ _ _ => rfl)
      ar.shape st3.1 st3.2
  have k4p : st4.1.position = st3.1.position :=
    loadPlain_keeps Registry.emplaceShape (fun r => r.position)
      (fun r m e => (resolve_stores r m e).2.1) (fun _ _ _ => rfl)
      ar.shape st3.1 st3.2
  have k4v : st4.1.velocity = st3.1.velocity :=
    loadPlain_keeps Registry.emplaceShape (fun r => r.velocity)
      (fun r m e => (resolve_stores r m e).2.2.1) (fun _ _ _ => rfl)
      ar.shape st3.1 st3.2
  have k4r : st4.1.relationShip = st3.1.relationShip :=
    loadPlain_keeps Registry.emplaceShape (fun r => r.relationShip)
      (fun r m e => (resolve_stores r m e).2.2.2.2) (fun _ _ _ => rfl)
      ar.shape st3.1 st3.2
  -- stage 5: RelationShip
  obtain ⟨iO, stabO, ⟨extr, hextr⟩, lookupO, refsO⟩ :=
    loadRel_spec tg.alloc ar.relationShip st4.1 st4.2 inv4 hrn hrz
      (by
        intro k hk
        have hk2 : k ∈ List.map Prod.fst st4.1.relationShip := hk
        rw [k4r, k3r, k2r, k1r, r0] at hk2
        obtain ⟨q, hq, rfl⟩ := List.mem_map.mp hk2
        exact Or.inl (htgrv q hq))
  obtain ⟨kOb, kOp, kOv, kOs⟩ := loadRel_keeps ar.relationShip st4.1 st4.2
  have kObs : (loadRel ar.relationShip st4).1.basicInfo = st4.1.basicInfo := kOb
  have kOps : (loadRel ar.relationShip st4).1.position = st4.1.position := kOp
  have kOvs : (loadRel ar.relationShip st4).1.velocity = st4.1.velocity := kOv
  have kOss : (loadRel ar.relationShip st4).1.shape = st4.1.shape := kOs
  rw [hout]
  refine ⟨iO, ?_, ?_, ?_, ?_, ?_, ?_, ?_⟩
  · intro e he hen
    obtain ⟨t, ht⟩ := mapped0 e he hen
    exact ⟨t, stabO _ _ (stab4 _ _ (stab3 _ _ (stab2 _ _ (stab1 _ _ ht))))⟩
  · intro p hp
    obtain ⟨t, ht, hsg⟩ := lookup1 p hp
    refine ⟨t, stabO _ _ (stab4 _ _ (stab3 _ _ (stab2 _ _ ht))), ?_⟩
    rw [kObs, k4b, k3b, k2b]
    exact hsg
  · intro p hp
    obtain ⟨t, ht, hsg⟩ := lookup2 p hp
    refine ⟨t, stabO _ _ (stab4 _ _ (stab3 _ _ ht)), ?_⟩
    rw [kOps, k4p, k3p]
    exact hsg
  · intro p hp
    obtain ⟨t, ht, hsg⟩ := lookup3 p hp
    refine ⟨t, stabO _ _ (stab4 _ _ ht), ?_⟩
    rw [kOvs, k4v]
    exact hsg
  · intro p hp
    obtain ⟨t, ht, hsg⟩ := lookup4 p hp
    refine ⟨t, stabO _ _ ht, ?_⟩
    rw [kOss]
    exact hsg
  · exact lookupO
  · exact refsO

/-- The archive written from a well-formed registry is well formed. -/
theorem write_archive_wf (R : Registry) (h : R.WF) : (snapshotWrite R).1.WF := by
  obtain ⟨hwf, hbn, hbv, hpn, hpv, hvn, hvv, hsn, hsv, hrn, hrv⟩ := h
  refine ⟨Allocator.live_nonnull R.alloc, hbn, ?_, hpn, ?_, hvn, ?_, hsn, ?_, hrn, ?_⟩
  all_goals
    intro p hp hn
  · have hv := hbv p hp
    rw [hn, Allocator.isValid_null] at hv
    exact Bool.noConfusion hv
  · have hv := hpv p hp
    rw [hn, Allocator.isValid_null] at hv
    exact Bool.noConfusion hv
  · have hv := hvv p hp
    rw [hn, Allocator.isValid_null] at hv
    exact Bool.noConfusion hv
  · have hv := hsv p hp
    rw [hn, Allocator.isValid_null] at hv
    exact Bool.noConfusion hv
  · have hv := hrv p hp
    rw [hn, Allocator.isValid_null] at hv
    exact Bool.noConfusion hv

/-- C2: continuous-loader round trip: loading the archive of a well-formed
registry R into a well-formed target T maps every live entity of R to a
fresh valid target entity, injectively, and transports every component
value, with RelationShip reference structure preserved under the mapping:
a graph isomorphism between R and the loaded subgraph of T. -/
theorem continuous_roundtrip (R T : Registry) (hR : R.WF) (hT : T.WF) :
    (∀ e, R.alloc.isValid e = true →
      ∃ t, mfind (continuousLoad (snapshotWrite R).1 T).2 e = some t ∧
        (continuousLoad (snapshotWrite R).1 T).1.alloc.isValid t = true ∧
        T.alloc.isValid t = false) ∧
    (∀ e1 e2 t, mfind (continuousLoad (snapshotWrite R).1 T).2 e1 = some t →
      mfind (continuousLoad (snapshotWrite R).1 T).2 e2 = some t → e1 = e2) ∧
    (∀ p ∈ R.basicInfo, storeGet (continuousLoad (snapshotWrite R).1 T).1.basicInfo
      (remapId (continuousLoad (snapshotWrite R).1 T).2 p.1) = some p.2) ∧
    (∀ p ∈ R.position, storeGet (continuousLoad (snapshotWrite R).1 T).1.position
      (remapId (continuousLoad (snapshotWrite R).1 T).2 p.1) = some p.2) ∧
    (∀ p ∈ R.velocity, storeGet (continuousLoad (snapshotWrite R).1 T).1.velocity
      (remapId (continuousLoad (snapshotWrite R).1 T).2 p.1) = some p.2) ∧
    (∀ p ∈ R.shape, storeGet (continuousLoad (snapshotWrite R).1 T).1.shape
      (remapId (continuousLoad (snapshotWrite R).1 T).2 p.1) = some p.2) ∧
    (∀ q ∈ R.relationShip,
      storeGet (continuousLoad (snapshotWrite R).1 T).1.relationShip
        (remapId (continuousLoad (snapshotWrite R).1 T).2 q.1) =
      some ⟨remapId (continuousLoad (snapshotWrite R).1 T).2 q.2.parent,
            q.2.children.map (remapId (continuousLoad (snapshotWrite R).1 T).2)⟩) := by
  obtain ⟨inv, mapped, lb, lp, lv, ls, lr, _⟩ :=
    continuousLoad_spec (snapshotWrite R).1 T hT (write_archive_wf R hR)
  have keynn : ∀ {e : Entity}, R.alloc.isValid e = true → e ≠ Entity.null := by
    intro e hv hn
    rw [hn, Allocator.isValid_null] at hv
    exact Bool.noConfusion hv
  refine ⟨?_, ?_, ?_, ?_, ?_, ?_, ?_⟩
  · intro e hv
    have hen : e ≠ Entity.null := keynn hv
    obtain ⟨j, g, rfl⟩ : ∃ j g, e = Entity.mk j g := by
      cases e with
      | null => exact absurd rfl hen
      | mk j g => exact ⟨j, g, rfl⟩
    obtain ⟨t, ht⟩ := mapped _ ((Allocator.mem_live _ _ _).mpr hv) hen
    have hmem := EMapLemmas.mfind_mem ht
    exact ⟨t, ht, inv.valVal _ hmem, inv.valFresh _ hmem⟩
  · exact fun e1 e2 t h1 h2 => EMapLemmas.mfind_inj inv.valsN h1 h2
  · intro p hp
    obtain ⟨t, ht, hsg⟩ := lb p hp
    rw [remapId_of_mfind (keynn (hR.2.2.1 p hp)) ht]
    exact hsg
  · intro p hp
    obtain ⟨t, ht, hsg⟩ := lp p hp
    rw [remapId_of_mfind (keynn (hR.2.2.2.2.1 p hp)) ht]
    exact hsg
  · intro p hp
    obtain ⟨t, ht, hsg⟩ := lv p hp
    rw [remapId_of_mfind (keynn (hR.2.2.2.2.2.2.1 p hp)) ht]
    exact hsg
  · intro p hp
    obtain ⟨t, ht, hsg⟩ := ls p hp
    rw [remapId_of_mfind (keynn (hR.2.2.2.2.2.2.2.2.1 p hp)) ht]
    exact hsg
  · intro q hq
    obtain ⟨t, ht, hsg⟩ := lr q hq
    rw [remapId_of_mfind (keynn (hR.2.2.2.2.2.2.2.2.2.2 q hq)) ht]
    exact hsg

/-- Witness for C2 at a concrete input: the archive of the Init registry
loaded into the (non-empty) Init registry itself. -/
theorem continuous_roundtrip_witness :
    initRegistry.WF ∧
    ((∀ e, initRegistry.alloc.isValid e = true →
      ∃ t, mfind (continuousLoad (snapshotWrite initRegistry).1 initRegistry).2 e
          = some t ∧
        (continuousLoad (snapshotWrite initRegistry).1
            initRegistry).1.alloc.isValid t = true ∧
        initRegistry.alloc.isValid t = false) ∧
    (∀ e1 e2 t,
      mfind (continuousLoad (snapshotWrite initRegistry).1 initRegistry).2 e1
          = some t →
      mfind (continuousLoad (snapshotWrite initRegistry).1 initRegistry).2 e2
          = some t → e1 = e2) ∧
    (∀ p ∈ initRegistry.basicInfo,
      storeGet (continuousLoad (snapshotWrite initRegistry).1
          initRegistry).1.basicInfo
        (remapId (continuousLoad (snapshotWrite initRegistry).1 initRegistry).2 p.1)
        = some p.2) ∧
    (∀ p ∈ initRegistry.position,
      storeGet (continuousLoad (snapshotWrite initRegistry).1
          initRegistry).1.position
        (remapId (continuousLoad (snapshotWrite initRegistry).1 initRegistry).2 p.1)
        = some p.2) ∧
    (∀ p ∈ initRegistry.velocity,
      storeGet (continuousLoad (snapshotWrite initRegistry).1
          initRegistry).1.velocity
        (remapId (continuousLoad (snapshotWrite initRegistry).1 initRegistry).2 p.1)
        = some p.2) ∧
    (∀ p ∈ initRegistry.shape,
      storeGet (continuousLoad (snapshotWrite initRegistry).1 initRegistry).1.shape
        (remapId (continuousLoad (snapshotWrite initRegistry).1 initRegistry).2 p.1)
        = some p.2) ∧
    (∀ q ∈ initRegistry.relationShip,
      storeGet (continuousLoad (snapshotWrite initRegistry).1
          initRegistry).1.relationShip
        (remapId (continuousLoad (snapshotWrite initRegistry).1 initRegistry).2 q.1) =
      some ⟨remapId (continuousLoad (snapshotWrite initRegistry).1 initRegistry).2
              q.2.parent,
            q.2.children.map
              (remapId (continuousLoad (snapshotWrite initRegistry).1
                initRegistry).2)⟩)) :=
  ⟨by decide, continuous_roundtrip initRegistry initRegistry (by decide) (by decide)⟩

/-- C3: continuous-loader reference rewriting: for an archived
RelationShip pair (A, {parent: P, children: [B]}), after a continuous load
the component attached to the target entity mapped from A has parent
mapped(P) and children exactly [mapped(B)]; the null sentinel is rewritten
to null and is never allocated a mapping. -/
theorem continuous_reference_rewriting (ar : Archive) (T : Registry)
    (hT : T.WF) (har : ar.WF) (A P B : Entity)
    (hmem : (A, RelationShip.mk P [B]) ∈ ar.relationShip) :
    (∃ t, mfind (continuousLoad ar T).2 A = some t ∧
      storeGet (continuousLoad ar T).1.relationShip t =
        some ⟨remapId (continuousLoad ar T).2 P,
              [remapId (continuousLoad ar T).2 B]⟩) ∧
    remapId (continuousLoad ar T).2 Entity.null = Entity.null ∧
    mfind (continuousLoad ar T).2 Entity.null = none := by
  obtain ⟨inv, _, _, _, _, _, lr, _⟩ := continuousLoad_spec ar T hT har
  refine ⟨?_, remapId_null _, ?_⟩
  · obtain ⟨t, ht, hsg⟩ := lr (A, RelationShip.mk P [B]) hmem
    exact ⟨t, ht, hsg⟩
  · rcases hn : mfind (continuousLoad ar T).2 Entity.null with _ | t
    · rfl
    · have := inv.keyNN _ (EMapLemmas.mfind_mem hn)
      exact absurd rfl this

/-- Witness for C3: the written Init archive loaded into an empty
registry; entity1 owns {parent: null, children: [entity2]}. -/
theorem continuous_reference_rewriting_witness :
    Registry.empty.WF ∧ (snapshotWrite initRegistry).1.WF ∧
    (Entity.mk 9 1, RelationShip.mk Entity.null [Entity.mk 8 1])
      ∈ (snapshotWrite initRegistry).1.relationShip ∧
    ((∃ t, mfind (continuousLoad (snapshotWrite initRegistry).1 Registry.empty).2
        (Entity.mk 9 1) = some t ∧
      storeGet (continuousLoad (snapshotWrite initRegistry).1
          Registry.empty).1.relationShip t =
        some ⟨remapId (continuousLoad (snapshotWrite initRegistry).1
                Registry.empty).2 Entity.null,
              [remapId (continuousLoad (snapshotWrite initRegistry).1
                Registry.empty).2 (Entity.mk 8 1)]⟩) ∧
    remapId (continuousLoad (snapshotWrite initRegistry).1 Registry.empty).2
        Entity.null = Entity.null ∧
    mfind (continuousLoad (snapshotWrite initRegistry).1 Registry.empty).2
        Entity.null = none) :=
  ⟨by decide, by decide, by decide,
    continuous_reference_rewriting (snapshotWrite initRegistry).1 Registry.empty
      (by decide) (by decide) (Entity.mk 9 1) Entity.null (Entity.mk 8 1)
      (by decide)⟩

/-- C5: forward-reference tolerance: if a component section of a
well-formed archive mentions a non-null identifier X that does not appear
in the archive's entity list, a continuous load into a well-formed target
still completes, allocating exactly one target entity for X: X is mapped
exactly once, to a handle valid in the result but not valid in the target
before the load. -/
theorem forward_reference_tolerance (ar : Archive) (T : Registry)
    (hT : T.WF) (har : ar.WF) (X : Entity) (hXn : X ≠ Entity.null)
    (hmen : ar.mentions X) (hnot : X ∉ ar.entities) :
    ∃ t, mfind (continuousLoad ar T).2 X = some t ∧
      (continuousLoad ar T).1.alloc.isValid t = true ∧
      T.alloc.isValid t = false ∧
      ((continuousLoad ar T).2.map Prod.fst).count X = 1 := by
  obtain ⟨inv, _, lb, lp, lv, ls, lr, refs⟩ := continuousLoad_spec ar T hT har
  have hmapped : ∃ t, mfind (continuousLoad ar T).2 X = some t := by
    rcases hmen with hm | hm | hm | hm | hm | ⟨q, hq, href⟩
    · obtain ⟨p, hp, rfl⟩ := List.mem_map.mp hm
      obtain ⟨t, ht, _⟩ := lb p hp
      exact ⟨t, ht⟩
    · obtain ⟨p, hp, rfl⟩ := List.mem_map.mp hm
      obtain ⟨t, ht, _⟩ := lp p hp
      exact ⟨t, ht⟩
    · obtain ⟨p, hp, rfl⟩ := List.mem_map.mp hm
      obtain ⟨t, ht, _⟩ := lv p hp
      exact ⟨t, ht⟩
    · obtain ⟨p, hp, rfl⟩ := List.mem_map.mp hm
      obtain ⟨t, ht, _⟩ := ls p hp
      exact ⟨t, ht⟩
    · obtain ⟨p, hp, rfl⟩ := List.mem_map.mp hm
      obtain ⟨t, ht, _⟩ := lr p hp
      exact ⟨t, ht⟩
    · rcases href with hpar | hchild
      · obtain ⟨u, hu⟩ := (refs q hq).1 (by rw [← hpar]; exact hXn)
        rw [← hpar] at hu
        exact ⟨u, hu⟩
      · obtain ⟨u, hu⟩ := (refs q hq).2 X hchild hXn
        exact ⟨u, hu⟩
  obtain ⟨t, ht⟩ := hmapped
  have hpair := EMapLemmas.mfind_mem ht
  refine ⟨t, ht, inv.valVal _ hpair, inv.valFresh _ hpair, ?_⟩
  exact List.count_eq_one_of_mem inv.keysN
    (List.mem_map.mpr ⟨(X, t), hpair, rfl⟩)

/-- Witness for C5: an archive whose Position section mentions an
identifier absent from its (empty) entity list, loaded into an empty
registry. -/
theorem forward_reference_tolerance_witness :
    Registry.empty.WF ∧
    (Archive.mk [] [] [(Entity.mk 5 7, ⟨1, 2⟩)] [] [] []).WF ∧
    (Archive.mk [] [] [(Entity.mk 5 7, ⟨1, 2⟩)] [] [] []).mentions (Entity.mk 5 7) ∧
    Entity.mk 5 7 ∉ (Archive.mk [] [] [(Entity.mk 5 7, ⟨1, 2⟩)] [] [] []).entities ∧
    (∃ t, mfind (continuousLoad
        (Archive.mk [] [] [(Entity.mk 5 7, ⟨1, 2⟩)] [] [] [])
        Registry.empty).2 (Entity.mk 5 7) = some t ∧
      (continuousLoad (Archive.mk [] [] [(Entity.mk 5 7, ⟨1, 2⟩)] [] [] [])
          Registry.empty).1.alloc.isValid t = true ∧
      Registry.empty.alloc.isValid t = false ∧
      ((continuousLoad (Archive.mk [] [] [(Entity.mk 5 7, ⟨1, 2⟩)] [] [] [])
          Registry.empty).2.map Prod.fst).count (Entity.mk 5 7) = 1) :=
  ⟨by decide, by decide, by decide, by decide,
    forward_reference_tolerance
      (Archive.mk [] [] [(Entity.mk 5 7, ⟨1, 2⟩)] [] [] []) Registry.empty
      (by decide) (by decide) (Entity.mk 5 7) (by decide) (by decide) (by decide)⟩
